import Mathlib

/-!
# Console glyph printer (`lab2.cpp`) and screen points (`Point2d.cpp`)

A shallow embedding of `ConsolePrinter` from `src/lab2/lab2/lab2.cpp`, in the namespace
`Lab2`, and of the class `Point2d` from `src/lab1/Point2d/Point2d.cpp`, in the namespace
`Lab1`.

* A C++ `char` is a Lean `Char` (one code unit), a `std::string` is a
  `List Char`, a `vector<string>` is a list of strings.
* The static `map<char, vector<string>> fontData` is an association list held
  in key order; `fontData[k] = v` is `FontTable.assign` and
  `fontData.find(k)` is `FontTable.find`.
* `std::cout` is the list of characters written to it.
* Everything the C++ leaves to the implementation (signedness of `char`,
  what `toupper` does outside ASCII under the current locale) is gathered in
  `Platform`, and every statement holds for every platform.
* Row counts are taken below `2^31`, so that the conversion of `size()` to
  `int` in `printText` is the identity.
-/

namespace Lab2

/-- A `std::string`, as its sequence of `char`s. -/
abbrev Str := List Char

/-- A `vector<string>`: the rows of one glyph. -/
abbrev Glyph := List Str

/-- The `map<char, vector<string>>`: its entries, in iteration order. -/
abbrev FontTable := List (Char × Glyph)

/-- What the C++ standard leaves open and the program relies on: whether `char`
is signed (it orders the keys of the map), and what `toupper` returns for the
characters outside ASCII under the locale in force (`main` sets "Russian");
such a character never becomes an ASCII one. On ASCII `toupper` is the same
under the "C" locale and under the single-byte locales that extend ASCII. -/
structure Platform where
  charSigned : Bool
  upperHigh : Char → Char
  upperHigh_high : ∀ c : Char, 128 ≤ c.toNat → 128 ≤ (upperHigh c).toNat

/-- The platform of the "C" locale with an unsigned `char`. -/
def Platform.c : Platform := ⟨false, fun c => c, fun _ h => h⟩

/-- The value of a `char` as the integer `std::less<char>` compares: where
`char` is signed the bytes 128 to 255 are the negative values. -/
def charValue (P : Platform) (c : Char) : Int :=
  if P.charSigned = true ∧ 128 ≤ c.toNat ∧ c.toNat < 256 then (c.toNat : Int) - 256
  else (c.toNat : Int)

/-- The comparison `std::less<char>` of the map. -/
def keyLess (P : Platform) (a b : Char) : Bool :=
  decide (charValue P a < charValue P b)

/-- The call `toupper(c)`: `a`-`z` go to `A`-`Z`, other ASCII characters are
unchanged, the rest is the locale's business. -/
def toupper (P : Platform) (c : Char) : Char :=
  if 'a'.toNat ≤ c.toNat ∧ c.toNat ≤ 'z'.toNat then Char.ofNat (c.toNat - 32)
  else if c.toNat < 128 then c
  else P.upperHigh c

/-- The lookup `fontData.find(k)`: the glyph stored under `k`, if any. -/
def FontTable.find : FontTable → Char → Option Glyph
  | [], _ => none
  | (k', v) :: rest, k => if k' = k then some v else FontTable.find rest k

/-- The assignment `fontData[k] = v`: overwrite the entry of `k`, or insert a
new entry at its place in key order. -/
def FontTable.assign (P : Platform) : FontTable → Char → Glyph → FontTable
  | [], k, v => [(k, v)]
  | (k', v') :: rest, k, v =>
    if k = k' then (k, v) :: rest
    else if keyLess P k k' = true then (k, v) :: (k', v') :: rest
    else (k', v') :: FontTable.assign P rest k v

/-- The keys of the table. -/
def FontTable.keys (t : FontTable) : List Char := t.map Prod.fst

/-- One call `getline(file, line)` on the unread part of the stream: `none`
when nothing is left (the call fails and the loop ends), otherwise the line,
whether the end of the file was hit while reading it (`file.eof()`), and the
part still unread. -/
def getline : Str → Option (Str × Bool × Str)
  | [] => none
  | c :: cs =>
    let line := (c :: cs).takeWhile (fun x => x != '\n')
    match (c :: cs).dropWhile (fun x => x != '\n') with
    | [] => some (line, true, [])
    | _ :: rest => some (line, false, rest)

/-- The successive values of `line` and `file.eof()` that the loop
`while (getline(file, line))` goes through. -/
def readLines : Str → List (Str × Bool)
  | [] => []
  | c :: cs =>
    if c = '\n' then ([], false) :: readLines cs
    else
      match readLines cs with
      | [] => [([c], true)]
      | (l, e) :: rest => (c :: l, e) :: rest

/-- The removal of one trailing carriage return:
`if (!line.empty() && line.back() == '\r') line.pop_back()`. -/
def stripCR (line : Str) : Str :=
  if line ≠ [] ∧ line.getLast? = some '\r' then line.dropLast else line

/-- The test of a header line: `line[0] == '[' && line.find(']') != npos`. -/
def isHeader (line : Str) : Prop := line.head? = some '[' ∧ ']' ∈ line

instance (line : Str) : Decidable (isHeader line) := by
  unfold isHeader; exact inferInstance

/-- The function `parseFontLine`, returning the new `currentChar` and
`currentData`. `line[1]` of a one-character string is the terminating NUL. -/
def parseFontLine (line : Str) (currentChar : Char) (currentData : Glyph) : Char × Glyph :=
  if line = [] then (currentChar, currentData)
  else if isHeader line then (line.getD 1 '\x00', [])
  else if line ≠ [] ∧ currentChar ≠ '\x00' then (currentChar, currentData ++ [line])
  else (currentChar, currentData)

/-- The local variables of `loadFont` together with the static table. -/
structure LoadState where
  currentChar : Char
  currentData : Glyph
  fontData : FontTable

/-- One turn of the loop of `loadFont`, on the line just read and the value
of `file.eof()` after reading it. -/
def loadStep (P : Platform) (st : LoadState) (rd : Str × Bool) : LoadState :=
  let line := stripCR rd.1
  let p := parseFontLine line st.currentChar st.currentData
  if (p.2 ≠ [] ∧ line = []) ∨ rd.2 = true then
    if p.1 ≠ '\x00' ∧ p.2 ≠ [] then
      { currentChar := p.1, currentData := [], fontData := st.fontData.assign P p.1 p.2 }
    else { currentChar := p.1, currentData := p.2, fontData := st.fontData }
  else { currentChar := p.1, currentData := p.2, fontData := st.fontData }

/-- The loop of `loadFont` over the lines of the stream. -/
def loadLoop (P : Platform) (lines : List (Str × Bool)) (st : LoadState) : LoadState :=
  lines.foldl (loadStep P) st

/-- The function `loadFont`: `fs` gives the content of the file at a path, or
`none` when it cannot be opened. The result is the exception thrown, if any,
and the table after the call. -/
def loadFont (P : Platform) (fs : String → Option Str) (filePath : String)
    (fontData : FontTable) : Except String Unit × FontTable :=
  match fs filePath with
  | none => (Except.error ("Ошибка: не удалось открыть файл " ++ filePath), fontData)
  | some content =>
    (Except.ok (),
      (loadLoop P (readLines content)
        { currentChar := '\x00', currentData := [], fontData := fontData }).fontData)

/-- The enumeration `Color`. -/
inductive Color where
  | BLACK | RED | GREEN | YELLOW | BLUE | MAGENTA | CYAN | WHITE | DEFAULT
  deriving DecidableEq

/-- The integer value of a `Color`. -/
def Color.code : Color → Nat
  | .BLACK => 30
  | .RED => 31
  | .GREEN => 32
  | .YELLOW => 33
  | .BLUE => 34
  | .MAGENTA => 35
  | .CYAN => 36
  | .WHITE => 37
  | .DEFAULT => 39

/-- The fields of a `ConsolePrinter` object. -/
structure ConsolePrinter where
  color : Color
  position : Int × Int
  symbol : Char

/-- The constructor, with its default arguments spelled out by the caller. -/
def ConsolePrinter.new (color : Color) (pos : Int × Int) (sym : Char) : ConsolePrinter :=
  { color := color, position := pos, symbol := sym }

/-- The output of `setColor`. -/
def setColor (self : ConsolePrinter) : Str :=
  "\x1b[".toList ++ Nat.toDigits 10 self.color.code ++ "m".toList

/-- The output of `resetStyle`. -/
def resetStyle : Str := "\x1b[0m".toList

/-- The value of `charHeight` in `printText`: the row count of the first entry
of the map, or 0 for an empty map. -/
def charHeight (fontData : FontTable) : Nat :=
  match fontData with
  | [] => 0
  | (_, g) :: _ => g.length

/-- One cell of a glyph row: `ch == '*' ? symbol : ' '`. -/
def printCell (symbol : Char) (ch : Char) : Char :=
  if ch = '*' then symbol else ' '

/-- The body of the loop over the characters of the text, for one character
at one row: what it writes. -/
def printChar (P : Platform) (fontData : FontTable) (symbol : Char) (lineNum : Nat)
    (c : Char) : Str :=
  let c := toupper P c
  if c = ' ' then "     ".toList
  else
    (match fontData.find c with
      | some g =>
        if h : lineNum < g.length then (g.get ⟨lineNum, h⟩).map (printCell symbol) else []
      | none => []) ++ " ".toList

/-- What the loop over the characters of the text writes at one row, before
the end of line. -/
def printRow (P : Platform) (fontData : FontTable) (symbol : Char) (text : Str)
    (lineNum : Nat) : Str :=
  text.flatMap (printChar P fontData symbol lineNum)

/-- The rows written by `printText`, first to last. -/
def printRows (P : Platform) (fontData : FontTable) (symbol : Char) (text : Str) : List Str :=
  (List.range (charHeight fontData)).map (printRow P fontData symbol text)

/-- The function `printText`: everything it writes to `std::cout`. -/
def printText (P : Platform) (fontData : FontTable) (self : ConsolePrinter) (text : Str) : Str :=
  setColor self
    ++ (printRows P fontData self.symbol text).flatMap (fun row => row ++ ['\n'])
    ++ resetStyle

/-- The static function `print`: a temporary printer writes the text, and its
destructor resets the style once more. -/
def print (P : Platform) (fontData : FontTable) (text : Str) (color : Color)
    (pos : Int × Int) (sym : Char) : Str :=
  printText P fontData (ConsolePrinter.new color pos sym) text ++ resetStyle

/-- The file system with a single file. -/
def oneFile (path : String) (content : Str) : String → Option Str :=
  fun p => if p = path then some content else none

/-- The file system holding the listed files. -/
def fileSystem (files : List (String × Str)) : String → Option Str :=
  fun p => files.lookup p

/-- A text made of the given lines, each followed by a line feed. -/
def unlines (ls : List Str) : Str := ls.flatMap (fun l => l ++ ['\n'])

/-- The header line of the glyph of `c`. -/
def headerLine (c : Char) : Str := ['[', c, ']']

/-- A row line of a font file: not empty, without line feed, not ending in a
carriage return, and not a header line. -/
def validRow (row : Str) : Prop :=
  row ≠ [] ∧ '\n' ∉ row ∧ row.getLast? ≠ some '\r' ∧ ¬ isHeader row

instance (row : Str) : Decidable (validRow row) := by
  unfold validRow; exact inferInstance

/-- Whether a call ended by throwing. -/
def raised (r : Except String Unit) : Bool :=
  match r with
  | Except.error _ => true
  | Except.ok _ => false

/-- The table after a sequence of assignments `fontData[k] = v`. -/
def assignAll (P : Platform) (T : FontTable) (log : List (Char × Glyph)) : FontTable :=
  log.foldl (fun t e => t.assign P e.1 e.2) T

/-- The letters `a`-`z`. -/
def lowerLetters : Str := "abcdefghijklmnopqrstuvwxyz".toList

/-- The letters `A`-`Z`. -/
def upperLetters : Str := "ABCDEFGHIJKLMNOPQRSTUVWXYZ".toList

/-- The replacement of a letter `a`-`z` by the letter `A`-`Z` at the same place
of the alphabet; any other character is kept. -/
def upperAZ (c : Char) : Char :=
  match (lowerLetters.zip upperLetters).lookup c with
  | some u => u
  | none => c

/-- The invariant of a `std::map`: the entries are in strictly increasing key order. -/
def FontTable.Ordered (P : Platform) (T : FontTable) : Prop :=
  List.Pairwise (fun a b => keyLess P a.1 b.1 = true) T

instance (P : Platform) (T : FontTable) : Decidable (T.Ordered P) := by
  unfold FontTable.Ordered; exact inferInstance

/-- The smallest key of the table under `std::less<char>`, found by comparing all keys. -/
def smallestKey (P : Platform) : FontTable → Option Char
  | [] => none
  | (k, _) :: rest =>
    match smallestKey P rest with
    | none => some k
    | some m => if keyLess P m k = true then some m else some k

/-- The canvas height as the specification words it: 0 for an empty table, otherwise the
row count of the glyph stored under the smallest key. -/
def heightOfSmallestKey (P : Platform) (T : FontTable) : Nat :=
  match smallestKey P T with
  | none => 0
  | some k =>
    match T.find k with
    | some g => g.length
    | none => 0

/-- The decimal code of each colour as the specification lists it. -/
def ansiCode : Color → Str
  | .BLACK => "30".toList
  | .RED => "31".toList
  | .GREEN => "32".toList
  | .YELLOW => "33".toList
  | .BLUE => "34".toList
  | .MAGENTA => "35".toList
  | .CYAN => "36".toList
  | .WHITE => "37".toList
  | .DEFAULT => "39".toList

/-- The text with every line feed replaced by a carriage return and a line feed. -/
def toCRLF (s : Str) : Str :=
  s.flatMap (fun c => if c = '\n' then ['\r', '\n'] else [c])

/-- A line as it is read from the text with CRLF endings: a line ended by a line feed has
gained a carriage return, a last line ended by the end of the file has not. -/
def addCR (rd : Str × Bool) : Str × Bool :=
  (if rd.2 = true then rd.1 else rd.1 ++ ['\r'], rd.2)

/-- The tables that calls of `loadFont`, on any files, can build from the empty table. -/
inductive Reachable (P : Platform) : FontTable → Prop where
  | empty : Reachable P []
  | load (fs : String → Option Str) (filePath : String) (T : FontTable) :
      Reachable P T → Reachable P (loadFont P fs filePath T).2

/-- The removal of the trailing carriage return with the access `line.back()` checked:
`none` stands for a read outside the string. -/
def stripCRChecked (line : Str) : Option Str :=
  if line = [] then some line
  else
    match line.getLast? with
    | none => none
    | some c => if c = '\r' then some line.dropLast else some line

/-- The function `parseFontLine` with the accesses `line[0]` and `line[1]` checked: `none`
stands for an index outside the string. -/
def parseFontLineChecked (line : Str) (currentChar : Char) (currentData : Glyph) :
    Option (Char × Glyph) :=
  if line = [] then some (currentChar, currentData)
  else
    match line.get? 0 with
    | none => none
    | some c0 =>
      if c0 = '[' ∧ ']' ∈ line then
        match line.get? 1 with
        | none => none
        | some c1 => some (c1, [])
      else if line ≠ [] ∧ currentChar ≠ '\x00' then some (currentChar, currentData ++ [line])
      else some (currentChar, currentData)

/-- One turn of the loop of `loadFont` with checked accesses. -/
def loadStepChecked (P : Platform) (st : LoadState) (rd : Str × Bool) : Option LoadState :=
  match stripCRChecked rd.1 with
  | none => none
  | some line =>
    match parseFontLineChecked line st.currentChar st.currentData with
    | none => none
    | some p =>
      if (p.2 ≠ [] ∧ line = []) ∨ rd.2 = true then
        if p.1 ≠ '\x00' ∧ p.2 ≠ [] then
          some { currentChar := p.1, currentData := [],
                 fontData := st.fontData.assign P p.1 p.2 }
        else some { currentChar := p.1, currentData := p.2, fontData := st.fontData }
      else some { currentChar := p.1, currentData := p.2, fontData := st.fontData }

/-- The loop of `loadFont` with checked accesses. -/
def loadLoopChecked (P : Platform) : List (Str × Bool) → LoadState → Option LoadState
  | [], st => some st
  | rd :: lines, st =>
    match loadStepChecked P st rd with
    | none => none
    | some st' => loadLoopChecked P lines st'

/-- The function `loadFont` with checked accesses. -/
def loadFontChecked (P : Platform) (fs : String → Option Str) (filePath : String)
    (fontData : FontTable) : Option (Except String Unit × FontTable) :=
  match fs filePath with
  | none => some (Except.error ("Ошибка: не удалось открыть файл " ++ filePath), fontData)
  | some content =>
    match loadLoopChecked P (readLines content)
        { currentChar := '\x00', currentData := [], fontData := fontData } with
    | none => none
    | some st => some (Except.ok (), st.fontData)

/-- The body of the loop over the characters of the text with the access to the glyph row
checked: `none` stands for a row index outside the glyph. -/
def printCharChecked (P : Platform) (fontData : FontTable) (symbol : Char) (lineNum : Nat)
    (c : Char) : Option Str :=
  let c := toupper P c
  if c = ' ' then some "     ".toList
  else
    match fontData.find c with
    | some g =>
      if lineNum < g.length then
        match g[lineNum]? with
        | none => none
        | some row => some (row.map (printCell symbol) ++ " ".toList)
      else some " ".toList
    | none => some " ".toList

/-- One row of `printText` with checked accesses. -/
def printRowChecked (P : Platform) (fontData : FontTable) (symbol : Char) :
    Str → Nat → Option Str
  | [], _ => some []
  | c :: cs, lineNum =>
    match printCharChecked P fontData symbol lineNum c with
    | none => none
    | some out =>
      match printRowChecked P fontData symbol cs lineNum with
      | none => none
      | some rest => some (out ++ rest)

/-- The rows of `printText` with checked accesses, for the given row numbers. -/
def printRowsChecked (P : Platform) (fontData : FontTable) (symbol : Char) (text : Str) :
    List Nat → Option (List Str)
  | [] => some []
  | lineNum :: more =>
    match printRowChecked P fontData symbol text lineNum with
    | none => none
    | some row =>
      match printRowsChecked P fontData symbol text more with
      | none => none
      | some rows => some (row :: rows)

/-- The function `printText` with checked accesses. -/
def printTextChecked (P : Platform) (fontData : FontTable) (self : ConsolePrinter)
    (text : Str) : Option Str :=
  match printRowsChecked P fontData self.symbol text (List.range (charHeight fontData)) with
  | none => none
  | some rows => some (setColor self ++ rows.flatMap (fun row => row ++ ['\n']) ++ resetStyle)

end Lab2

namespace Lab1

/-- The constant `WIDTH`. -/
def WIDTH : Int := 1920

/-- The constant `HEIGHT`. -/
def HEIGHT : Int := 1080

/-- The fields of a `Point2d`. An `int` is taken as an integer: the functions below compare
and copy coordinates and never compute with them. -/
structure Point2d where
  x_ : Int
  y_ : Int
  deriving DecidableEq

/-- The function `validateCoordinates`: the exception it throws, if any. -/
def validateCoordinates (x y : Int) : Except String Unit :=
  if x < 0 ∨ x > WIDTH ∨ y < 0 ∨ y > HEIGHT then
    Except.error "Координаты за пределами экрана"
  else Except.ok ()

/-- The constructor `Point2d(x, y)`: the point, or the exception that leaves none. -/
def Point2d.construct (x y : Int) : Except String Point2d :=
  match validateCoordinates x y with
  | Except.error e => Except.error e
  | Except.ok _ => Except.ok { x_ := x, y_ := y }

/-- The function `set_x`: the exception thrown, if any, and the point after the call. -/
def Point2d.set_x (self : Point2d) (x : Int) : Except String Unit × Point2d :=
  match validateCoordinates x self.y_ with
  | Except.error e => (Except.error e, self)
  | Except.ok _ => (Except.ok (), { x_ := x, y_ := self.y_ })

/-- The function `set_y`: the exception thrown, if any, and the point after the call. -/
def Point2d.set_y (self : Point2d) (y : Int) : Except String Unit × Point2d :=
  match validateCoordinates self.x_ y with
  | Except.error e => (Except.error e, self)
  | Except.ok _ => (Except.ok (), { x_ := self.x_, y_ := y })

/-- The assignment `operator=(const pair<int, int>&)`: the point after it. -/
def Point2d.assignPair (_self : Point2d) (pair : Int × Int) : Point2d :=
  { x_ := pair.1, y_ := pair.2 }

/-- The assignment `operator=(const Point2d&)`: the point after it. -/
def Point2d.assignPoint (_self : Point2d) (point : Point2d) : Point2d :=
  { x_ := point.x_, y_ := point.y_ }

/-- The bounds of the screen for a pair of coordinates. -/
def inBounds (x y : Int) : Prop := 0 ≤ x ∧ x ≤ WIDTH ∧ 0 ≤ y ∧ y ≤ HEIGHT

instance (x y : Int) : Decidable (inBounds x y) := by
  unfold inBounds; exact inferInstance

/-- A point on the screen. -/
def Point2d.onScreen (p : Point2d) : Prop := inBounds p.x_ p.y_

instance (p : Point2d) : Decidable p.onScreen := by
  unfold Point2d.onScreen; exact inferInstance

/-- Whether a call ended by throwing. -/
def threw {α : Type} (r : Except String α) : Bool :=
  match r with
  | Except.error _ => true
  | Except.ok _ => false

/-- A change of a point by one of its validating members: a setter, or the assignment from
a point that is itself on the screen. -/
inductive Change where
  | set_x (x : Int)
  | set_y (y : Int)
  | assignPoint (point : Point2d) (h : point.onScreen)

/-- The point after a change, an exception of a setter being caught by the caller. -/
def Point2d.change (p : Point2d) : Change → Point2d
  | Change.set_x x => (p.set_x x).2
  | Change.set_y y => (p.set_y y).2
  | Change.assignPoint point _ => p.assignPoint point

end Lab1

namespace Lab2

/-! ## The lines of a stream -/

/-- The list `readLines` is what repeated calls of `getline` deliver: its head is the
result of one call, its tail the lines of the part left unread, and it ends where the
call fails. -/
theorem readLines_eq_getline (s : Str) :
    readLines s =
      match getline s with
      | none => []
      | some (line, eof, rest) => (line, eof) :: readLines rest := by
  induction s with
  | nil => rfl
  | cons c cs ih =>
    by_cases hc : c = '\n'
    · subst hc
      simp [readLines, getline]
    · cases cs with
      | nil => simp [readLines, getline, hc]
      | cons d ds =>
        simp only [readLines, hc, if_false] at ih ⊢
        rw [ih]
        simp only [getline]
        have e1 : (c :: d :: ds).takeWhile (fun x => x != '\n')
            = c :: (d :: ds).takeWhile (fun x => x != '\n') := by
          rw [List.takeWhile_cons]; simp [hc]
        have e2 : (c :: d :: ds).dropWhile (fun x => x != '\n')
            = (d :: ds).dropWhile (fun x => x != '\n') := by
          rw [List.dropWhile_cons]; simp [hc]
        rw [e1, e2]
        cases (d :: ds).dropWhile (fun x => x != '\n') <;> simp

theorem readLines_line (l rest : Str) (h : '\n' ∉ l) :
    readLines (l ++ '\n' :: rest) = (l, false) :: readLines rest := by
  induction l with
  | nil => simp [readLines]
  | cons c cs ih =>
    have hc : c ≠ '\n' := fun e => h (by simp [e])
    have hcs : '\n' ∉ cs := fun e => h (by simp [e])
    simp [readLines, hc, ih hcs]

theorem readLines_last (l : Str) (h : '\n' ∉ l) (hne : l ≠ []) :
    readLines l = [(l, true)] := by
  induction l with
  | nil => exact absurd rfl hne
  | cons c cs ih =>
    have hc : c ≠ '\n' := fun e => h (by simp [e])
    have hcs : '\n' ∉ cs := fun e => h (by simp [e])
    cases cs with
    | nil => simp [readLines, hc]
    | cons d ds =>
      have := ih hcs (by simp)
      simp only [readLines, hc, if_false] at this ⊢
      rw [this]

/-- A text that starts with complete lines is read as those lines, none of them at the
end of the file, followed by the lines of the remainder. -/
theorem readLines_unlines (ls : List Str) (rest : Str) (h : ∀ l ∈ ls, '\n' ∉ l) :
    readLines (unlines ls ++ rest) = ls.map (fun l => (l, false)) ++ readLines rest := by
  induction ls with
  | nil => simp [unlines]
  | cons l ls ih =>
    have hl : '\n' ∉ l := h l (by simp)
    have hls : ∀ l' ∈ ls, '\n' ∉ l' := fun l' hl' => h l' (by simp [hl'])
    have e : unlines (l :: ls) ++ rest = l ++ '\n' :: (unlines ls ++ rest) := by
      simp [unlines]
    rw [e, readLines_line l _ hl, ih hls]
    simp

theorem readLines_unlines_last (ls : List Str) (l : Str) (h : ∀ l' ∈ ls, '\n' ∉ l')
    (hl : '\n' ∉ l) (hne : l ≠ []) :
    readLines (unlines ls ++ l) = ls.map (fun l' => (l', false)) ++ [(l, true)] := by
  rw [readLines_unlines ls l h, readLines_last l hl hne]

/-! ## The table as a map -/

/-- After `fontData[k] = v` a lookup of `k` gives `v`, and any other lookup is unchanged. -/
theorem find_assign (P : Platform) (t : FontTable) (k k' : Char) (v : Glyph) :
    (t.assign P k v).find k' = if k = k' then some v else t.find k' := by
  induction t with
  | nil => simp [FontTable.assign, FontTable.find]
  | cons e rest ih =>
    obtain ⟨k1, v1⟩ := e
    by_cases h1 : k = k1
    · subst h1
      by_cases h2 : k = k' <;> simp [FontTable.assign, FontTable.find, h2]
    · by_cases h3 : keyLess P k k1 = true
      · by_cases h2 : k = k'
        · subst h2
          simp [FontTable.assign, FontTable.find, h1, h3]
        · simp [FontTable.assign, FontTable.find, h1, h2, h3]
      · by_cases h2 : k = k'
        · subst h2
          simp [FontTable.assign, FontTable.find, h1, h3, ih, Ne.symm h1]
        · simp [FontTable.assign, FontTable.find, h1, h3, ih, h2]

theorem find_assignAll (P : Platform) (log : List (Char × Glyph)) (T : FontTable) (k : Char) :
    (assignAll P T log).find k =
      match (assignAll P [] log).find k with
      | some g => some g
      | none => T.find k := by
  induction log using List.reverseRecOn with
  | nil => simp [assignAll, FontTable.find]
  | append_singleton log e ih =>
    have e1 : ∀ T', assignAll P T' (log ++ [e]) = (assignAll P T' log).assign P e.1 e.2 := by
      intro T'; simp [assignAll]
    rw [e1, e1, find_assign, find_assign]
    by_cases h : e.1 = k
    · simp [h]
    · simp [h, ih]

theorem mem_keys_iff (t : FontTable) (k : Char) : k ∈ t.keys ↔ ∃ g, t.find k = some g := by
  induction t with
  | nil => simp [FontTable.keys, FontTable.find]
  | cons e rest ih =>
    obtain ⟨k1, v1⟩ := e
    by_cases h : k1 = k
    · simp [FontTable.keys, FontTable.find, h]
    · have h' : ¬ k = k1 := fun e => h e.symm
      simp only [FontTable.keys] at ih
      simp [FontTable.keys, FontTable.find, h, h', ih]

/-! ## The loop of the loader -/

theorem stripCR_of_validRow (row : Str) (h : validRow row) : stripCR row = row := by
  simp [stripCR, h.2.2.1]

theorem parseFontLine_row (row : Str) (cc : Char) (cd : Glyph) (h : validRow row)
    (hcc : cc ≠ '\x00') : parseFontLine row cc cd = (cc, cd ++ [row]) := by
  simp [parseFontLine, h.1, h.2.2.2, hcc]

theorem loadStep_header (P : Platform) (st : LoadState) (c : Char) :
    loadStep P st (headerLine c, false)
      = { currentChar := c, currentData := [], fontData := st.fontData } := by
  have hs : stripCR (headerLine c) = headerLine c := by
    simp [stripCR, headerLine]
  have hp : ∀ cc cd, parseFontLine (headerLine c) cc cd = (c, []) := by
    intro cc cd
    simp [parseFontLine, headerLine, isHeader]
  simp [loadStep, hs, hp]

theorem loadStep_row (P : Platform) (cc : Char) (cd : Glyph) (T : FontTable) (row : Str)
    (h : validRow row) (hcc : cc ≠ '\x00') :
    loadStep P { currentChar := cc, currentData := cd, fontData := T } (row, false)
      = { currentChar := cc, currentData := cd ++ [row], fontData := T } := by
  simp [loadStep, stripCR_of_validRow row h, parseFontLine_row row cc cd h hcc, h.1]

theorem loadStep_row_eof (P : Platform) (cc : Char) (cd : Glyph) (T : FontTable) (row : Str)
    (h : validRow row) (hcc : cc ≠ '\x00') :
    loadStep P { currentChar := cc, currentData := cd, fontData := T } (row, true)
      = { currentChar := cc, currentData := [], fontData := T.assign P cc (cd ++ [row]) } := by
  simp [loadStep, stripCR_of_validRow row h, parseFontLine_row row cc cd h hcc, hcc]

theorem loadStep_blank (P : Platform) (cc : Char) (cd : Glyph) (T : FontTable)
    (hcd : cd ≠ []) (hcc : cc ≠ '\x00') :
    loadStep P { currentChar := cc, currentData := cd, fontData := T } ([], false)
      = { currentChar := cc, currentData := [], fontData := T.assign P cc cd } := by
  simp [loadStep, stripCR, parseFontLine, hcd, hcc]

theorem loadLoop_cons (P : Platform) (rd : Str × Bool) (lines : List (Str × Bool))
    (st : LoadState) : loadLoop P (rd :: lines) st = loadLoop P lines (loadStep P st rd) := rfl

theorem loadLoop_append (P : Platform) (l1 l2 : List (Str × Bool)) (st : LoadState) :
    loadLoop P (l1 ++ l2) st = loadLoop P l2 (loadLoop P l1 st) := by
  simp [loadLoop, List.foldl_append]

theorem loadLoop_rows (P : Platform) (rows : Glyph) (more : List (Str × Bool)) (cc : Char)
    (cd : Glyph) (T : FontTable) (h : ∀ row ∈ rows, validRow row) (hcc : cc ≠ '\x00') :
    loadLoop P (rows.map (fun l => (l, false)) ++ more)
        { currentChar := cc, currentData := cd, fontData := T }
      = loadLoop P more { currentChar := cc, currentData := cd ++ rows, fontData := T } := by
  induction rows generalizing cd with
  | nil => simp
  | cons row rows ih =>
    have hr : validRow row := h row (by simp)
    have hrs : ∀ r ∈ rows, validRow r := fun r hr' => h r (by simp [hr'])
    have := ih (cd ++ [row]) hrs
    simp only [loadLoop, List.map_cons, List.cons_append, List.foldl_cons] at this ⊢
    rw [loadStep_row P cc cd T row hr hcc, this]
    simp

theorem loadLoop_block (P : Platform) (st : LoadState) (c : Char) (rows : Glyph)
    (hc0 : c ≠ '\x00') (hne : rows ≠ []) (hrows : ∀ row ∈ rows, validRow row) :
    loadLoop P ((headerLine c, false) :: rows.map (fun l => (l, false)) ++ [([], false)]) st
      = { currentChar := c, currentData := [], fontData := st.fontData.assign P c rows } := by
  have := loadLoop_rows P rows [([], false)] c [] st.fontData hrows hc0
  simp only [loadLoop, List.cons_append, List.foldl_cons, loadStep_header] at this ⊢
  rw [this]
  simp [loadStep_blank P c rows st.fontData hne hc0]

theorem loadFont_of_open (P : Platform) (fs : String → Option Str) (filePath : String)
    (T : FontTable) (content : Str) (h : fs filePath = some content) :
    loadFont P fs filePath T
      = (Except.ok (), (loadLoop P (readLines content)
          { currentChar := '\x00', currentData := [], fontData := T }).fontData) := by
  simp [loadFont, h]

/-- What a turn of the loop does to the table, an assignment or nothing, and what it
leaves in the local variables, do not depend on the table. -/
theorem loadStep_cases (P : Platform) (cc : Char) (cd : Glyph) (rd : Str × Bool) :
    ∃ cc' cd', (∀ T, loadStep P ⟨cc, cd, T⟩ rd = ⟨cc', cd', T⟩) ∨
      (∃ g, ∀ T, loadStep P ⟨cc, cd, T⟩ rd = ⟨cc', cd', T.assign P cc' g⟩) := by
  simp only [loadStep]
  split_ifs
  · exact ⟨_, _, Or.inr ⟨_, fun T => rfl⟩⟩
  · exact ⟨_, _, Or.inl fun T => rfl⟩
  · exact ⟨_, _, Or.inl fun T => rfl⟩

/-- The loop performs a sequence of assignments that depends on the lines only. -/
theorem loadLoop_log (P : Platform) (lines : List (Str × Bool)) (cc : Char) (cd : Glyph) :
    ∃ log : List (Char × Glyph), ∀ T : FontTable,
      (loadLoop P lines ⟨cc, cd, T⟩).fontData = assignAll P T log := by
  induction lines generalizing cc cd with
  | nil => exact ⟨[], fun T => rfl⟩
  | cons rd lines ih =>
    obtain ⟨cc', cd', h | ⟨g, h⟩⟩ := loadStep_cases P cc cd rd
    · obtain ⟨log, hlog⟩ := ih cc' cd'
      exact ⟨log, fun T => by rw [loadLoop_cons, h T, hlog T]⟩
    · obtain ⟨log, hlog⟩ := ih cc' cd'
      exact ⟨(cc', g) :: log, fun T => by rw [loadLoop_cons, h T, hlog]; rfl⟩

/-- A lookup after the loop gives the glyph that the same lines give over an empty table,
and the prior glyph when they give none. -/
theorem find_loadLoop (P : Platform) (lines : List (Str × Bool)) (cc : Char) (cd : Glyph)
    (T : FontTable) (k : Char) :
    (loadLoop P lines ⟨cc, cd, T⟩).fontData.find k =
      match (loadLoop P lines ⟨cc, cd, []⟩).fontData.find k with
      | some g => some g
      | none => T.find k := by
  obtain ⟨log, hlog⟩ := loadLoop_log P lines cc cd
  rw [hlog T, hlog []]
  exact find_assignAll P log T k

/-- With blank and header lines only the row buffer stays empty and the table is kept. -/
theorem loadLoop_no_rows (P : Platform) (lines : List (Str × Bool)) (cc : Char) (T : FontTable)
    (h : ∀ rd ∈ lines, stripCR rd.1 = [] ∨ isHeader (stripCR rd.1)) :
    (loadLoop P lines ⟨cc, [], T⟩).currentData = [] ∧
      (loadLoop P lines ⟨cc, [], T⟩).fontData = T := by
  induction lines generalizing cc with
  | nil => exact ⟨rfl, rfl⟩
  | cons rd lines ih =>
    have hrd := h rd (by simp)
    have hrest : ∀ rd' ∈ lines, stripCR rd'.1 = [] ∨ isHeader (stripCR rd'.1) :=
      fun rd' hrd' => h rd' (by simp [hrd'])
    have hstep : ∃ cc', loadStep P ⟨cc, [], T⟩ rd = ⟨cc', [], T⟩ := by
      rcases hrd with h0 | h1
      · exact ⟨cc, by simp [loadStep, parseFontLine, h0]⟩
      · have hne : stripCR rd.1 ≠ [] := by
          intro e; rw [e] at h1; simp [isHeader] at h1
        exact ⟨(stripCR rd.1).getD 1 '\x00', by simp [loadStep, parseFontLine, h1, hne]⟩
    obtain ⟨cc', hcc'⟩ := hstep
    rw [loadLoop_cons, hcc']
    exact ih cc' hrest

/-- A block whose last row is ended by the end of the file, not by a line feed, is stored,
whatever complete lines come before it. -/
theorem loadFont_block_at_eof (P : Platform) (fs : String → Option Str) (filePath : String)
    (T : FontTable) (before : List Str) (c : Char) (rows : Glyph)
    (hb : ∀ l ∈ before, '\n' ∉ l) (hc0 : c ≠ '\x00') (hcn : c ≠ '\n') (hne : rows ≠ [])
    (hrows : ∀ row ∈ rows, validRow row)
    (hfs : fs filePath
      = some (unlines (before ++ headerLine c :: rows.dropLast) ++ rows.getLast hne)) :
    (loadFont P fs filePath T).2.find c = some rows := by
  rw [loadFont_of_open P fs filePath T _ hfs]
  have hlast : validRow (rows.getLast hne) := hrows _ (List.getLast_mem hne)
  have hdrop : ∀ row ∈ rows.dropLast, validRow row :=
    fun row h => hrows row (List.mem_of_mem_dropLast h)
  have hl : ∀ l ∈ before ++ headerLine c :: rows.dropLast, '\n' ∉ l := by
    intro l hl
    simp only [List.mem_append, List.mem_cons] at hl
    rcases hl with h | e | h
    · exact hb l h
    · subst e
      simp [headerLine, Ne.symm hcn]
    · exact (hdrop l h).2.1
  rw [readLines_unlines_last _ _ hl hlast.2.1 hlast.1]
  simp only [List.map_append, List.map_cons, List.append_assoc, List.cons_append,
    loadLoop_append, loadLoop_cons, loadStep_header]
  have hr := loadLoop_rows P rows.dropLast [] c []
    (loadLoop P (before.map (fun l => (l, false))) ⟨'\x00', [], T⟩).fontData hdrop hc0
  rw [List.append_nil] at hr
  have hnil : ∀ st : LoadState, loadLoop P [] st = st := fun _ => rfl
  rw [hr, List.nil_append, hnil, hnil, loadStep_row_eof P c rows.dropLast _ _ hlast hc0,
    List.dropLast_append_getLast hne]
  simp [loadLoop, find_assign]

/-- A block whose last row is ended by a line feed and then the end of the file is
dropped: the table is the one that the lines before the block give. -/
theorem loadFont_block_before_final_line_feed (P : Platform) (fs : String → Option Str)
    (filePath filePath' : String) (T : FontTable) (before : List Str) (c : Char)
    (rows : Glyph) (hb : ∀ l ∈ before, '\n' ∉ l) (hc0 : c ≠ '\x00') (hcn : c ≠ '\n')
    (hrows : ∀ row ∈ rows, validRow row)
    (hfs : fs filePath = some (unlines (before ++ headerLine c :: rows)))
    (hfs' : fs filePath' = some (unlines before)) :
    (loadFont P fs filePath T).2 = (loadFont P fs filePath' T).2 := by
  rw [loadFont_of_open P fs filePath T _ hfs, loadFont_of_open P fs filePath' T _ hfs']
  have hl : ∀ l ∈ before ++ headerLine c :: rows, '\n' ∉ l := by
    intro l hl
    simp only [List.mem_append, List.mem_cons] at hl
    rcases hl with h | e | h
    · exact hb l h
    · subst e
      simp [headerLine, Ne.symm hcn]
    · exact (hrows l h).2.1
  have e1 := readLines_unlines (before ++ headerLine c :: rows) [] hl
  have e2 := readLines_unlines before [] hb
  rw [List.append_nil] at e1 e2
  rw [e1, e2]
  simp only [List.map_append, List.map_cons, List.append_assoc, List.cons_append, readLines,
    List.append_nil, loadLoop_append, loadLoop_cons, loadStep_header]
  have := loadLoop_rows P rows [] c []
    (loadLoop P (before.map (fun l => (l, false))) ⟨'\x00', [], T⟩).fontData hrows hc0
  rw [List.append_nil] at this
  rw [this]
  rfl

/-! ## The loader: blocks, end of input, cumulative loads, failure -/

/-- C1 (amended): for every prior table, every character `c` other than NUL and the line
feed, and every non-empty list of rows that are non-empty, free of line feeds, not ending in
a carriage return and not header lines, `loadFont` on the text made of the line `[c]`, the
rows one per line and a blank line leaves `FontTable[c]` equal to exactly that list of
rows. -/
theorem loadFont_block_lookup (P : Platform) (fs : String → Option Str) (filePath : String)
    (T : FontTable) (c : Char) (rows : Glyph)
    (hc0 : c ≠ '\x00') (hcn : c ≠ '\n') (hne : rows ≠ [])
    (hrows : ∀ row ∈ rows, validRow row)
    (hfs : fs filePath = some (unlines (headerLine c :: rows ++ [[]]))) :
    (loadFont P fs filePath T).2.find c = some rows := by
  rw [loadFont_of_open P fs filePath T _ hfs]
  have hl : ∀ l ∈ headerLine c :: rows ++ [[]], '\n' ∉ l := by
    intro l hl
    simp only [List.cons_append, List.mem_cons, List.mem_append, List.mem_singleton,
      List.not_mem_nil, or_false] at hl
    rcases hl with e | h | e
    · subst e
      simp [headerLine, Ne.symm hcn]
    · exact (hrows l h).2.1
    · subst e
      simp
  have e := readLines_unlines (headerLine c :: rows ++ [[]]) [] hl
  rw [List.append_nil] at e
  rw [e]
  have e2 : (headerLine c :: rows ++ [[]]).map (fun l => (l, false)) ++ readLines []
      = (headerLine c, false) :: rows.map (fun l => (l, false)) ++ [([], false)] := by
    simp [readLines]
  rw [e2, loadLoop_block P _ c rows hc0 hne hrows]
  simp [find_assign]

/-- C1 at a concrete input: the glyph of `A` with the single row `*`. -/
theorem loadFont_block_lookup_witness :
    (('A' : Char) ≠ '\x00' ∧ ('A' : Char) ≠ '\n' ∧ ([['*']] : Glyph) ≠ [] ∧
        (∀ row ∈ ([['*']] : Glyph), validRow row) ∧
        unlines (headerLine 'A' :: [['*']] ++ [[]]) = "[A]\n*\n\n".toList) ∧
      (loadFont Platform.c (oneFile "font.txt" "[A]\n*\n\n".toList) "font.txt" []).2.find 'A'
        = some [['*']] :=
  ⟨by decide,
    loadFont_block_lookup Platform.c (oneFile "font.txt" "[A]\n*\n\n".toList) "font.txt" []
      'A' [['*']] (by decide) (by decide) (by decide) (by decide) (by decide)⟩

/-- C1 as stated fails when `c` is the line feed: the text `[`, line feed, `]`, line feed,
`*`, line feed, line feed has no header line, and nothing is stored under the line feed. -/
theorem loadFont_block_lookup_line_feed :
    ('\n' : Char) ≠ '\x00' ∧ ([['*']] : Glyph) ≠ [] ∧
      (∀ row ∈ ([['*']] : Glyph), validRow row) ∧
      unlines (headerLine '\n' :: [['*']] ++ [[]]) = "[\n]\n*\n\n".toList ∧
      (loadFont Platform.c (oneFile "font.txt" (unlines (headerLine '\n' :: [['*']] ++ [[]])))
        "font.txt" []).2.find '\n' ≠ some [['*']] := by
  decide

/-- C2 at the failing input: when the file ends with the line feed of the last row, the
last call of `getline` that succeeds does not hit the end of the file, and the block of `A`
is lost; without that line feed it is stored. -/
theorem loadFont_final_line_feed :
    (loadFont Platform.c (oneFile "font.txt" "[A]\n*\n".toList) "font.txt" []).2 = [] ∧
      (loadFont Platform.c (oneFile "font.txt" "[A]\n*".toList) "font.txt" []).2
        = [('A', [['*']])] := by
  decide

/-- C3: when loading `s2` into an empty table gives `c` the glyph `g`, loading `s1` and
then `s2`, from any table, leaves `FontTable[c]` equal to `g`. -/
theorem loadFont_last_write_wins (P : Platform) (fs : String → Option Str)
    (path1 path2 : String) (s1 s2 : Str) (T : FontTable) (c : Char) (g : Glyph)
    (h1 : fs path1 = some s1) (h2 : fs path2 = some s2)
    (hg : (loadFont P fs path2 []).2.find c = some g) :
    (loadFont P fs path2 (loadFont P fs path1 T).2).2.find c = some g := by
  rw [loadFont_of_open P fs path2 _ s2 h2] at hg ⊢
  rw [loadFont_of_open P fs path1 _ s1 h1]
  simp only at hg ⊢
  rw [find_loadLoop, hg]

/-- C3 at a concrete input: two files that both define `A`. -/
theorem loadFont_last_write_wins_witness :
    (fileSystem [("a.txt", "[A]\n*\n\n".toList), ("b.txt", "[A]\n**\n\n".toList)] "a.txt"
        = some "[A]\n*\n\n".toList ∧
      fileSystem [("a.txt", "[A]\n*\n\n".toList), ("b.txt", "[A]\n**\n\n".toList)] "b.txt"
        = some "[A]\n**\n\n".toList) ∧
      (loadFont Platform.c
          (fileSystem [("a.txt", "[A]\n*\n\n".toList), ("b.txt", "[A]\n**\n\n".toList)]) "b.txt"
          (loadFont Platform.c
            (fileSystem [("a.txt", "[A]\n*\n\n".toList), ("b.txt", "[A]\n**\n\n".toList)])
            "a.txt" [('B', [['*']])]).2).2.find 'A' = some [['*', '*']] :=
  ⟨by decide,
    loadFont_last_write_wins Platform.c _ "a.txt" "b.txt" "[A]\n*\n\n".toList
      "[A]\n**\n\n".toList [('B', [['*']])] 'A' [['*', '*']] (by decide) (by decide)
      (by decide)⟩

/-- C4: after `loadFont` on a source `s`, every key of the prior table `T` is still a key,
and every key that `s` gives no glyph (a key absent after loading `s` into an empty table)
maps to exactly the glyph it had in `T`. -/
theorem loadFont_keeps_entries (P : Platform) (fs : String → Option Str) (filePath : String)
    (s : Str) (T : FontTable) (hfs : fs filePath = some s) :
    (∀ k ∈ T.keys, k ∈ (loadFont P fs filePath T).2.keys) ∧
      (∀ k, (loadFont P fs filePath []).2.find k = none →
        (loadFont P fs filePath T).2.find k = T.find k) := by
  rw [loadFont_of_open P fs filePath T s hfs, loadFont_of_open P fs filePath [] s hfs]
  simp only
  constructor
  · intro k hk
    obtain ⟨g, hg⟩ := (mem_keys_iff T k).1 hk
    rw [mem_keys_iff, find_loadLoop]
    cases (loadLoop P (readLines s) ⟨'\x00', [], []⟩).fontData.find k with
    | none => exact ⟨g, hg⟩
    | some g' => exact ⟨g', rfl⟩
  · intro k hk
    rw [find_loadLoop, hk]

/-- C4 at a concrete input: a file that redefines `B` and adds `C` keeps `A`. -/
theorem loadFont_keeps_entries_witness :
    oneFile "font.txt" "[B]\n*\n\n[C]\n*\n\n".toList "font.txt"
        = some "[B]\n*\n\n[C]\n*\n\n".toList ∧
      'B' ∈ (loadFont Platform.c (oneFile "font.txt" "[B]\n*\n\n[C]\n*\n\n".toList) "font.txt"
        [('A', [['*']]), ('B', [['*', '*']])]).2.keys ∧
      (loadFont Platform.c (oneFile "font.txt" "[B]\n*\n\n[C]\n*\n\n".toList) "font.txt"
        [('A', [['*']]), ('B', [['*', '*']])]).2.find 'A'
        = FontTable.find [('A', [['*']]), ('B', [['*', '*']])] 'A' :=
  ⟨by decide,
    (loadFont_keeps_entries Platform.c (oneFile "font.txt" "[B]\n*\n\n[C]\n*\n\n".toList)
      "font.txt" "[B]\n*\n\n[C]\n*\n\n".toList [('A', [['*']]), ('B', [['*', '*']])] (by decide)).1 'B' (by decide),
    (loadFont_keeps_entries Platform.c (oneFile "font.txt" "[B]\n*\n\n[C]\n*\n\n".toList)
      "font.txt" "[B]\n*\n\n[C]\n*\n\n".toList [('A', [['*']]), ('B', [['*', '*']])] (by decide)).2 'A' (by decide)⟩

/-- C5: when every line of the source is blank or a header line (after the removal of a
trailing carriage return), `loadFont` leaves the table identical, hence of the same size. -/
theorem loadFont_headers_only (P : Platform) (fs : String → Option Str) (filePath : String)
    (s : Str) (T : FontTable) (hfs : fs filePath = some s)
    (hl : ∀ rd ∈ readLines s, stripCR rd.1 = [] ∨ isHeader (stripCR rd.1)) :
    (loadFont P fs filePath T).2 = T ∧ (loadFont P fs filePath T).2.length = T.length := by
  rw [loadFont_of_open P fs filePath T s hfs]
  have := (loadLoop_no_rows P (readLines s) '\x00' T hl).2
  simp only
  rw [this]
  exact ⟨rfl, rfl⟩

/-- C5 at a concrete input: headers and blank lines, with both kinds of line ending. -/
theorem loadFont_headers_only_witness :
    (oneFile "font.txt" "[A]\n\n[B]\r\n[C]\n[D]".toList "font.txt"
        = some "[A]\n\n[B]\r\n[C]\n[D]".toList ∧
      ∀ rd ∈ readLines "[A]\n\n[B]\r\n[C]\n[D]".toList,
        stripCR rd.1 = [] ∨ isHeader (stripCR rd.1)) ∧
      (loadFont Platform.c (oneFile "font.txt" "[A]\n\n[B]\r\n[C]\n[D]".toList) "font.txt"
        [('A', [['*']])]).2 = [('A', [['*']])] :=
  ⟨by decide,
    (loadFont_headers_only Platform.c (oneFile "font.txt" "[A]\n\n[B]\r\n[C]\n[D]".toList)
      "font.txt" "[A]\n\n[B]\r\n[C]\n[D]".toList [('A', [['*']])] (by decide) (by decide)).1⟩

/-- C6: `loadFont` throws exactly when the file cannot be opened; when it throws the table
is what it was; and on a file that opens it returns normally, whatever the content. -/
theorem loadFont_raises_iff (P : Platform) (fs : String → Option Str) (filePath : String)
    (T : FontTable) :
    (raised (loadFont P fs filePath T).1 = true ↔ fs filePath = none) ∧
      (raised (loadFont P fs filePath T).1 = true → (loadFont P fs filePath T).2 = T) ∧
      (∀ content, fs filePath = some content →
        (loadFont P fs filePath T).1 = Except.ok ()) := by
  cases h : fs filePath with
  | none => simp [loadFont, h, raised]
  | some content => simp [loadFont, h, raised]

/-- C6 at concrete inputs: a missing file, and a file without any header. -/
theorem loadFont_raises_iff_witness :
    (raised (loadFont Platform.c (fileSystem []) "missing.txt" [('A', [['*']])]).1 = true ∧
      (loadFont Platform.c (fileSystem []) "missing.txt" [('A', [['*']])]).2
        = [('A', [['*']])]) ∧
      (loadFont Platform.c (oneFile "font.txt" "*]\n[\n\n".toList) "font.txt" []).1
        = Except.ok () :=
  ⟨⟨(loadFont_raises_iff Platform.c (fileSystem []) "missing.txt" [('A', [['*']])]).1.2
      (by decide),
    (loadFont_raises_iff Platform.c (fileSystem []) "missing.txt" [('A', [['*']])]).2.1
      ((loadFont_raises_iff Platform.c (fileSystem []) "missing.txt" [('A', [['*']])]).1.2
        (by decide))⟩,
    (loadFont_raises_iff Platform.c (oneFile "font.txt" "*]\n[\n\n".toList) "font.txt" []).2.2
      "*]\n[\n\n".toList (by decide)⟩

/-! ## Upper-casing and the rows of the renderer -/

theorem char_of_toNat_eq (c : Char) (n : Nat) (h : c.toNat = n) : c = Char.ofNat n := by
  rw [← h, Char.ofNat_toNat]

theorem toupper_lower (P : Platform) (c : Char) (h1 : 97 ≤ c.toNat) (h2 : c.toNat ≤ 122) :
    toupper P c = upperAZ c ∧ 65 ≤ (upperAZ c).toNat ∧ (upperAZ c).toNat ≤ 90 := by
  obtain ⟨n, hn⟩ : ∃ n, c.toNat = n := ⟨_, rfl⟩
  rw [hn] at h1 h2
  have hc := char_of_toNat_eq c n hn
  subst hc
  interval_cases n <;> exact ⟨by rfl, by decide, by decide⟩

theorem lowerLetters_range : ∀ p ∈ lowerLetters.zip upperLetters,
    97 ≤ p.1.toNat ∧ p.1.toNat ≤ 122 := by
  decide

theorem toupper_not_lower (P : Platform) (c : Char) (h : ¬ (97 ≤ c.toNat ∧ c.toNat ≤ 122)) :
    toupper P c = (if c.toNat < 128 then c else P.upperHigh c) ∧ upperAZ c = c := by
  constructor
  · have e1 : 'a'.toNat = 97 := rfl
    have e2 : 'z'.toNat = 122 := rfl
    simp only [toupper, e1, e2, h, if_false]
  · have hnone : (lowerLetters.zip upperLetters).lookup c = none := by
      rw [List.lookup_eq_none_iff]
      intro p hp
      have := lowerLetters_range p hp
      have hne : c ≠ p.1 := by
        intro e
        rw [← e] at this
        exact h this
      simpa using hne
    simp [upperAZ, hnone]

/-- Upper-casing does not see whether the letters `a`-`z` were replaced beforehand. -/
theorem toupper_upperAZ (P : Platform) (c : Char) : toupper P (upperAZ c) = toupper P c := by
  by_cases h : 97 ≤ c.toNat ∧ c.toNat ≤ 122
  · obtain ⟨e, h1, h2⟩ := toupper_lower P c h.1 h.2
    rw [e]
    have hn : ¬ (97 ≤ (upperAZ c).toNat ∧ (upperAZ c).toNat ≤ 122) := by omega
    rw [(toupper_not_lower P (upperAZ c) hn).1]
    have : (upperAZ c).toNat < 128 := by omega
    simp [this]
  · rw [(toupper_not_lower P c h).2]

/-- Only the space is upper-cased to the space. -/
theorem toupper_eq_space_iff (P : Platform) (c : Char) : toupper P c = ' ' ↔ c = ' ' := by
  have hs : (' ' : Char).toNat = 32 := rfl
  by_cases h : 97 ≤ c.toNat ∧ c.toNat ≤ 122
  · obtain ⟨e, h1, h2⟩ := toupper_lower P c h.1 h.2
    constructor
    · intro e'
      rw [e'] at e
      rw [← e, hs] at h1
      omega
    · intro e'
      rw [e', hs] at h
      omega
  · rw [(toupper_not_lower P c h).1]
    by_cases h128 : c.toNat < 128
    · simp [h128]
    · simp only [h128, if_false]
      constructor
      · intro e'
        have := P.upperHigh_high c (by omega)
        rw [e', hs] at this
        omega
      · intro e'
        rw [e', hs] at h128
        omega

theorem printRows_row (P : Platform) (T : FontTable) (s : Char) (text : Str) (r : Nat)
    (hr : r < charHeight T) : (printRows P T s text)[r]? = some (printRow P T s text r) := by
  simp [printRows, List.getElem?_map, List.getElem?_range hr]

theorem printRow_singleton (P : Platform) (T : FontTable) (s : Char) (c : Char) (r : Nat) :
    printRow P T s [c] r = printChar P T s r c := by
  simp [printRow]

theorem printChar_known (P : Platform) (T : FontTable) (s c : Char) (g : Glyph) (r : Nat)
    (hc : c ≠ ' ') (hg : T.find (toupper P c) = some g) :
    printChar P T s r c =
      match g[r]? with
      | some row => row.map (printCell s) ++ [' ']
      | none => [' '] := by
  have hsp : toupper P c ≠ ' ' := fun e => hc ((toupper_eq_space_iff P c).1 e)
  simp only [printChar, hsp, if_false, hg]
  by_cases h : r < g.length
  · simp [h, List.getElem?_eq_getElem h]
  · have : g[r]? = none := List.getElem?_eq_none (by omega)
    simp [h, this]

theorem printCell_ink (row : Str) (i : Nat) :
    (row.map (printCell '%') ++ [' '])[i]? = some '%' ↔ row[i]? = some '*' := by
  induction row generalizing i with
  | nil => cases i <;> simp
  | cons a row ih =>
    cases i with
    | zero =>
      by_cases ha : a = '*'
      · simp [printCell, ha]
      · simp [printCell, ha]
    | succ i => simpa using ih i

theorem printChar_space (P : Platform) (T : FontTable) (s : Char) (r : Nat) :
    printChar P T s r ' ' = List.replicate 5 ' ' := by
  have : toupper P ' ' = ' ' := (toupper_eq_space_iff P ' ').2 rfl
  simp only [printChar, this, if_true]
  rfl

theorem printRow_spaces (P : Platform) (T : FontTable) (s : Char) (N r : Nat) :
    printRow P T s (List.replicate N ' ') r = List.replicate (5 * N) ' ' := by
  induction N with
  | zero => simp [printRow]
  | succ N ih =>
    have e : 5 * (N + 1) = 5 + 5 * N := by ring
    simp only [printRow] at ih
    simp only [printRow, List.replicate_succ, List.flatMap_cons, ih, printChar_space, e,
      List.replicate_add]

theorem printRow_unknown (P : Platform) (T : FontTable) (s : Char) (text : Str) (r : Nat)
    (h : ∀ c ∈ text, toupper P c ≠ ' ' ∧ T.find (toupper P c) = none) :
    printRow P T s text r = List.replicate text.length ' ' := by
  induction text with
  | nil => simp [printRow]
  | cons c cs ih =>
    have hc := h c (by simp)
    have hcs : ∀ c' ∈ cs, toupper P c' ≠ ' ' ∧ T.find (toupper P c') = none :=
      fun c' hc' => h c' (by simp [hc'])
    have ih' := ih hcs
    simp only [printRow] at ih'
    simp only [printRow, List.flatMap_cons, ih', List.length_cons, List.replicate_succ]
    simp [printChar, hc.1, hc.2]

theorem printChar_upperAZ (P : Platform) (T : FontTable) (s : Char) (r : Nat) (c : Char) :
    printChar P T s r (upperAZ c) = printChar P T s r c := by
  simp only [printChar, toupper_upperAZ]

theorem printRow_upperAZ (P : Platform) (T : FontTable) (s : Char) (text : Str) (r : Nat) :
    printRow P T s (text.map upperAZ) r = printRow P T s text r := by
  induction text with
  | nil => rfl
  | cons c cs ih =>
    simp only [printRow] at ih
    simp only [printRow, List.map_cons, List.flatMap_cons, ih, printChar_upperAZ]

/-- The output of `printText` from its rows: the colour sequence, each row with its end of
line, the reset sequence. -/
theorem printText_eq_rows (P : Platform) (T : FontTable) (self : ConsolePrinter) (text : Str)
    (rows : List Str) (h : printRows P T self.symbol text = rows) :
    printText P T self text
      = setColor self ++ (rows.map (fun row => row ++ ['\n'])).flatten ++ resetStyle := by
  simp [printText, h, List.flatMap]

/-! ## The renderer: known and unknown characters, spaces, letter case -/

/-- C7: for a character `c` other than the space whose upper-cased form has the glyph `g`,
row `r` of `printText` on the one-character text `c`, for `r` below the canvas height, is
the image of `g[r]` under the cell map followed by one space when `g` has a row `r`, and is
one space otherwise; with the fill symbol `%` the positions of `%` in that output row are
exactly the positions of `*` in `g[r]`. -/
theorem printText_single_known (P : Platform) (T : FontTable) (s c : Char) (g : Glyph)
    (r : Nat) (hc : c ≠ ' ') (hg : T.find (toupper P c) = some g) (hr : r < charHeight T) :
    (printRows P T s [c])[r]? =
        some (match g[r]? with
          | some row => row.map (printCell s) ++ [' ']
          | none => [' ']) ∧
      ∀ out, (printRows P T '%' [c])[r]? = some out →
        ∀ i : Nat, out[i]? = some '%' ↔ (g[r]?).bind (fun row : Str => row[i]?) = some '*' := by
  constructor
  · rw [printRows_row P T s [c] r hr, printRow_singleton, printChar_known P T s c g r hc hg]
  · intro out hout i
    rw [printRows_row P T '%' [c] r hr, printRow_singleton,
      printChar_known P T '%' c g r hc hg] at hout
    have e := Option.some.inj hout
    subst e
    cases hrow : g[r]? with
    | none => cases i <;> simp
    | some row => simpa using printCell_ink row i

/-- C7 at a concrete input: the text `a` against a glyph of `A` with two rows. -/
theorem printText_single_known_witness :
    (('a' : Char) ≠ ' ' ∧
        FontTable.find [('A', ["* *".toList, "***".toList])] (toupper Platform.c 'a')
          = some ["* *".toList, "***".toList] ∧
        0 < charHeight [('A', ["* *".toList, "***".toList])]) ∧
      (printRows Platform.c [('A', ["* *".toList, "***".toList])] '%' ['a'])[0]?
        = some "% % ".toList :=
  ⟨by decide,
    (printText_single_known Platform.c [('A', ["* *".toList, "***".toList])] '%' 'a'
      ["* *".toList, "***".toList] 0 (by decide) (by decide) (by decide)).1⟩

/-- C8: on a text of `N` spaces `printText` writes exactly `charHeight` rows, each of them
exactly `5 * N` spaces, whatever the table (also one with a glyph for the space) and the
fill symbol. -/
theorem printText_spaces (P : Platform) (T : FontTable) (self : ConsolePrinter) (N : Nat) :
    printRows P T self.symbol (List.replicate N ' ')
        = List.replicate (charHeight T) (List.replicate (5 * N) ' ') ∧
      printText P T self (List.replicate N ' ')
        = setColor self
          ++ (List.replicate (charHeight T) (List.replicate (5 * N) ' ' ++ ['\n'])).flatten
          ++ resetStyle := by
  have h : printRows P T self.symbol (List.replicate N ' ')
      = List.replicate (charHeight T) (List.replicate (5 * N) ' ') := by
    have e : printRow P T self.symbol (List.replicate N ' ')
        = fun _ => List.replicate (5 * N) ' ' :=
      funext fun r => printRow_spaces P T self.symbol N r
    simp [printRows, e]
  refine ⟨h, ?_⟩
  rw [printText_eq_rows P T self _ _ h]
  simp

/-- C9: on a text none of whose characters, once upper-cased, is a space or a key of the
table, `printText` writes `charHeight` rows, each of them exactly one space per character
of the text. -/
theorem printText_unknown (P : Platform) (T : FontTable) (self : ConsolePrinter) (text : Str)
    (h : ∀ c ∈ text, toupper P c ≠ ' ' ∧ T.find (toupper P c) = none) :
    printRows P T self.symbol text
        = List.replicate (charHeight T) (List.replicate text.length ' ') ∧
      printText P T self text
        = setColor self
          ++ (List.replicate (charHeight T)
                (List.replicate text.length ' ' ++ ['\n'])).flatten
          ++ resetStyle := by
  have h' : printRows P T self.symbol text
      = List.replicate (charHeight T) (List.replicate text.length ' ') := by
    simp only [printRows]
    rw [List.map_congr_left (fun r _ => printRow_unknown P T self.symbol text r h)]
    simp
  refine ⟨h', ?_⟩
  rw [printText_eq_rows P T self _ _ h']
  simp

/-- C9 at a concrete input: the text `x1` against a table that only knows `A`. -/
theorem printText_unknown_witness :
    (∀ c ∈ "x1".toList, toupper Platform.c c ≠ ' ' ∧
        FontTable.find [('A', ["*".toList, "*".toList])] (toupper Platform.c c) = none) ∧
      printRows Platform.c [('A', ["*".toList, "*".toList])] '#' "x1".toList
        = ["  ".toList, "  ".toList] :=
  ⟨by decide,
    (printText_unknown Platform.c [('A', ["*".toList, "*".toList])]
      (ConsolePrinter.new Color.DEFAULT (1, 1) '#') "x1".toList (by decide)).1⟩

/-- C10: `printText` writes the same for a text and for the text with every letter `a`-`z`
replaced by `A`-`Z`; and after loading the lines `[A]`, `*` and a blank line into an empty
table, the text `a` with the fill symbol `#` gives exactly one row, `#` and one space. -/
theorem printText_case_insensitive (P : Platform) (T : FontTable) (self : ConsolePrinter)
    (text : Str) :
    printText P T self text = printText P T self (text.map upperAZ) ∧
      printRows P (loadFont P (oneFile "font.txt" "[A]\n*\n\n".toList) "font.txt" []).2 '#'
        "a".toList = ["# ".toList] := by
  constructor
  · have e : printRow P T self.symbol (text.map upperAZ) = printRow P T self.symbol text :=
      funext fun r => printRow_upperAZ P T self.symbol text r
    simp only [printText, printRows, e]
  · rfl

/-! ## The order of the keys and the canvas height -/

theorem char_eq_of_toNat_eq (a b : Char) (h : a.toNat = b.toNat) : a = b := by
  rw [← Char.ofNat_toNat a, ← Char.ofNat_toNat b, h]

theorem charValue_injective (P : Platform) (a b : Char) (h : charValue P a = charValue P b) :
    a = b := by
  apply char_eq_of_toNat_eq
  unfold charValue at h
  split_ifs at h <;> omega

theorem keyLess_iff (P : Platform) (a b : Char) :
    keyLess P a b = true ↔ charValue P a < charValue P b := by
  simp [keyLess]

theorem keyLess_trans (P : Platform) (a b c : Char) (h1 : keyLess P a b = true)
    (h2 : keyLess P b c = true) : keyLess P a c = true := by
  rw [keyLess_iff] at *
  omega

theorem keyLess_asymm (P : Platform) (a b : Char) (h1 : keyLess P a b = true) :
    ¬ keyLess P b a = true := by
  rw [keyLess_iff] at *
  omega

theorem keyLess_of_ne (P : Platform) (a b : Char) (h : a ≠ b) (h1 : ¬ keyLess P a b = true) :
    keyLess P b a = true := by
  rw [keyLess_iff] at *
  have : charValue P a ≠ charValue P b := fun e => h (charValue_injective P a b e)
  omega

theorem mem_assign (P : Platform) (T : FontTable) (k : Char) (v : Glyph) (e : Char × Glyph)
    (h : e ∈ T.assign P k v) : e = (k, v) ∨ e ∈ T := by
  induction T with
  | nil => simpa [FontTable.assign] using h
  | cons e1 rest ih =>
    obtain ⟨k1, v1⟩ := e1
    simp only [FontTable.assign] at h
    split_ifs at h with h1 h2
    · simp only [List.mem_cons] at h ⊢
      rcases h with h | h
      · exact Or.inl h
      · exact Or.inr (Or.inr h)
    · simp only [List.mem_cons] at h ⊢
      exact h
    · simp only [List.mem_cons] at h ⊢
      rcases h with h | h
      · exact Or.inr (Or.inl h)
      · rcases ih h with h | h
        · exact Or.inl h
        · exact Or.inr (Or.inr h)

/-- The assignment `fontData[k] = v` keeps the entries in strictly increasing key order. -/
theorem assign_ordered (P : Platform) (T : FontTable) (k : Char) (v : Glyph)
    (h : T.Ordered P) : (T.assign P k v).Ordered P := by
  induction T with
  | nil => simp [FontTable.assign, FontTable.Ordered]
  | cons e1 rest ih =>
    obtain ⟨k1, v1⟩ := e1
    have h' := h
    simp only [FontTable.Ordered, List.pairwise_cons] at h
    obtain ⟨hhead, htail⟩ := h
    simp only [FontTable.assign]
    split_ifs with h1 h2
    · subst h1
      simp only [FontTable.Ordered, List.pairwise_cons]
      exact ⟨hhead, htail⟩
    · simp only [FontTable.Ordered, List.pairwise_cons]
      refine ⟨?_, hhead, htail⟩
      intro e he
      simp only [List.mem_cons] at he
      rcases he with he | he
      · subst he
        exact h2
      · exact keyLess_trans P k k1 e.1 h2 (hhead e he)
    · simp only [FontTable.Ordered, List.pairwise_cons]
      refine ⟨?_, ih htail⟩
      intro e he
      rcases mem_assign P rest k v e he with he | he
      · subst he
        exact keyLess_of_ne P k k1 h1 h2
      · exact hhead e he

theorem assignAll_ordered (P : Platform) (log : List (Char × Glyph)) (T : FontTable)
    (h : T.Ordered P) : (assignAll P T log).Ordered P := by
  induction log generalizing T with
  | nil => exact h
  | cons e log ih => exact ih _ (assign_ordered P T e.1 e.2 h)

/-- The function `loadFont` keeps the entries in strictly increasing key order, so every
table reached from the empty one is ordered. -/
theorem loadFont_ordered (P : Platform) (fs : String → Option Str) (filePath : String)
    (T : FontTable) (h : T.Ordered P) : (loadFont P fs filePath T).2.Ordered P := by
  cases hfs : fs filePath with
  | none => simpa [loadFont, hfs] using h
  | some content =>
    rw [loadFont_of_open P fs filePath T content hfs]
    obtain ⟨log, hlog⟩ := loadLoop_log P (readLines content) '\x00' []
    simp only
    rw [hlog T]
    exact assignAll_ordered P log T h

theorem smallestKey_mem (P : Platform) (T : FontTable) (m : Char)
    (h : smallestKey P T = some m) : ∃ g, (m, g) ∈ T := by
  induction T generalizing m with
  | nil => simp [smallestKey] at h
  | cons e rest ih =>
    obtain ⟨k, g⟩ := e
    simp only [smallestKey] at h
    cases hr : smallestKey P rest with
    | none =>
      rw [hr] at h
      simp only [Option.some.injEq] at h
      exact ⟨g, by simp [h]⟩
    | some m' =>
      rw [hr] at h
      simp only at h
      split_ifs at h
      · simp only [Option.some.injEq] at h
        subst h
        obtain ⟨g', hg'⟩ := ih m' hr
        exact ⟨g', by simp [hg']⟩
      · simp only [Option.some.injEq] at h
        exact ⟨g, by simp [h]⟩

/-- In an ordered table the smallest key is the key of the first entry. -/
theorem smallestKey_ordered (P : Platform) (k : Char) (g : Glyph) (rest : FontTable)
    (h : FontTable.Ordered P ((k, g) :: rest)) : smallestKey P ((k, g) :: rest) = some k := by
  simp only [FontTable.Ordered, List.pairwise_cons] at h
  simp only [smallestKey]
  cases hr : smallestKey P rest with
  | none => rfl
  | some m =>
    obtain ⟨g', hg'⟩ := smallestKey_mem P rest m hr
    have := keyLess_asymm P k m (h.1 (m, g') hg')
    simp [this]

theorem charHeight_eq_heightOfSmallestKey (P : Platform) (T : FontTable) (h : T.Ordered P) :
    charHeight T = heightOfSmallestKey P T := by
  cases T with
  | nil => rfl
  | cons e rest =>
    obtain ⟨k, g⟩ := e
    simp [heightOfSmallestKey, smallestKey_ordered P k g rest h, charHeight, FontTable.find]

/-- C11: for every table (ordered, as a `std::map` is) and every text, the output of
`printText` is the colour sequence, `h` rows each ended by a line feed, and the reset
sequence, where `h` is 0 for an empty table and otherwise the row count of the glyph under
the smallest key; `h` is a function of the table alone, and an empty table gives no row. -/
theorem printText_canvas_height (P : Platform) (T : FontTable) (self : ConsolePrinter)
    (text : Str) (hT : T.Ordered P) :
    printText P T self text
        = setColor self
          ++ (printRows P T self.symbol text).flatMap (fun row => row ++ ['\n'])
          ++ resetStyle ∧
      (printRows P T self.symbol text).length = heightOfSmallestKey P T ∧
      (T = [] → heightOfSmallestKey P T = 0 ∧ printRows P T self.symbol text = []) := by
  refine ⟨rfl, ?_, ?_⟩
  · rw [← charHeight_eq_heightOfSmallestKey P T hT]
    simp [printRows]
  · intro e
    subst e
    exact ⟨rfl, rfl⟩

/-- C11 at a concrete input: the table loaded from a file that defines `B` with two rows
and then `A` with one row; the height is the row count of `A`, also for the empty text. -/
theorem printText_canvas_height_witness :
    FontTable.Ordered Platform.c
        (loadFont Platform.c (oneFile "font.txt" "[B]\n*\n*\n\n[A]\n*\n\n".toList) "font.txt"
          []).2 ∧
      (printRows Platform.c
        (loadFont Platform.c (oneFile "font.txt" "[B]\n*\n*\n\n[A]\n*\n\n".toList) "font.txt"
          []).2 '#' []).length = 1 :=
  ⟨by decide,
    (printText_canvas_height Platform.c
      (loadFont Platform.c (oneFile "font.txt" "[B]\n*\n*\n\n[A]\n*\n\n".toList) "font.txt"
        []).2 (ConsolePrinter.new Color.DEFAULT (1, 1) '#') [] (by decide)).2.1⟩

/-! ## The colour sequences around the rows -/

theorem printCell_cases (s ch : Char) : printCell s ch = ' ' ∨ printCell s ch = s := by
  unfold printCell
  split_ifs
  · exact Or.inr rfl
  · exact Or.inl rfl

theorem printChar_cells (P : Platform) (T : FontTable) (s : Char) (r : Nat) (c ch : Char)
    (h : ch ∈ printChar P T s r c) : ch = ' ' ∨ ch = s := by
  unfold printChar at h
  simp only at h
  split_ifs at h with h1
  · left
    have : ∀ x ∈ "     ".toList, x = ' ' := by decide
    exact this ch h
  · rw [List.mem_append] at h
    rcases h with h | h
    · split at h
      · split_ifs at h with h2
        · rw [List.mem_map] at h
          obtain ⟨x, _, hx⟩ := h
          rw [← hx]
          exact printCell_cases s x
        · simp at h
      · simp at h
    · left
      have : ∀ x ∈ " ".toList, x = ' ' := by decide
      exact this ch h

theorem printRows_cells (P : Platform) (T : FontTable) (s : Char) (text : Str) (ch : Char)
    (h : ch ∈ (printRows P T s text).flatMap (fun row => row ++ ['\n'])) :
    ch = ' ' ∨ ch = '\n' ∨ ch = s := by
  simp only [printRows, printRow, List.mem_flatMap, List.mem_map, List.mem_range,
    List.mem_append, List.mem_singleton] at h
  obtain ⟨row, ⟨r, _, hrow⟩, h | h⟩ := h
  · subst hrow
    rw [List.mem_flatMap] at h
    obtain ⟨c, _, hc⟩ := h
    rcases printChar_cells P T s r c ch hc with e | e
    · exact Or.inl e
    · exact Or.inr (Or.inr e)
  · exact Or.inr (Or.inl h)

/-- C12: the output of `printText` is ESC `[` code `m`, then the rows, then ESC `[` `0` `m`,
where the code is 30 to 37 for BLACK to WHITE and 39 for DEFAULT; every character between
the two sequences is a space, a line feed or the fill symbol, so the rows hold an escape
character only if it is the fill symbol. -/
theorem printText_color_frame (P : Platform) (T : FontTable) (self : ConsolePrinter)
    (text : Str) :
    printText P T self text
        = ['\x1b', '['] ++ ansiCode self.color ++ ['m']
          ++ (printRows P T self.symbol text).flatMap (fun row => row ++ ['\n'])
          ++ ['\x1b', '[', '0', 'm'] ∧
      (∀ ch ∈ (printRows P T self.symbol text).flatMap (fun row => row ++ ['\n']),
        ch = ' ' ∨ ch = '\n' ∨ ch = self.symbol) ∧
      (self.symbol ≠ '\x1b' →
        '\x1b' ∉ (printRows P T self.symbol text).flatMap (fun row => row ++ ['\n'])) := by
  refine ⟨?_, ?_, ?_⟩
  · have hc : Nat.toDigits 10 self.color.code = ansiCode self.color := by
      cases self.color <;> rfl
    simp only [printText, setColor, hc, resetStyle]
    rfl
  · intro ch h
    exact printRows_cells P T self.symbol text ch h
  · intro hs hmem
    rcases printRows_cells P T self.symbol text _ hmem with e | e | e
    · exact absurd e (by decide)
    · exact absurd e (by decide)
    · exact hs e.symm

/-- C12 at a concrete input: the text `A` in green with the fill symbol `#`. -/
theorem printText_color_frame_witness :
    (('#' : Char) ≠ '\x1b') ∧
      printText Platform.c [('A', ["*".toList])] (ConsolePrinter.new Color.GREEN (1, 1) '#')
          "A".toList
        = "\x1b[32m# \n\x1b[0m".toList ∧
      '\x1b' ∉ (printRows Platform.c [('A', ["*".toList])] '#' "A".toList).flatMap
        (fun row => row ++ ['\n']) :=
  ⟨by decide,
    (printText_color_frame Platform.c [('A', ["*".toList])]
      (ConsolePrinter.new Color.GREEN (1, 1) '#') "A".toList).1,
    (printText_color_frame Platform.c [('A', ["*".toList])]
      (ConsolePrinter.new Color.GREEN (1, 1) '#') "A".toList).2.2 (by decide)⟩

/-! ## Line endings -/

theorem readLines_toCRLF (s : Str) : readLines (toCRLF s) = (readLines s).map addCR := by
  induction s with
  | nil => rfl
  | cons c cs ih =>
    by_cases hc : c = '\n'
    · subst hc
      have e : toCRLF ('\n' :: cs) = '\r' :: '\n' :: toCRLF cs := by simp [toCRLF]
      rw [e]
      simp [readLines, ih, addCR]
    · have e : toCRLF (c :: cs) = c :: toCRLF cs := by simp [toCRLF, hc]
      rw [e]
      simp only [readLines, hc, if_false, ih]
      cases readLines cs with
      | nil => simp [addCR]
      | cons rd rest =>
        obtain ⟨l, b⟩ := rd
        cases b <;> simp [addCR]

theorem readLines_no_cr (s : Str) (h : '\r' ∉ s) : ∀ rd ∈ readLines s, '\r' ∉ rd.1 := by
  induction s with
  | nil => simp [readLines]
  | cons c cs ih =>
    have hc : c ≠ '\r' := fun e => h (by simp [e])
    have hcs : '\r' ∉ cs := fun e => h (by simp [e])
    have ih' := ih hcs
    by_cases hn : c = '\n'
    · simp only [readLines, hn, if_true, List.mem_cons]
      rintro rd (e | e)
      · simp [e]
      · exact ih' rd e
    · simp only [readLines, hn, if_false]
      cases hr : readLines cs with
      | nil =>
        simp only [List.mem_singleton]
        rintro rd e
        simp [e, Ne.symm hc]
      | cons rd0 rest =>
        rw [hr] at ih'
        simp only [List.mem_cons]
        rintro rd (e | e)
        · have := ih' rd0 (by simp)
          simp [e, Ne.symm hc, this]
        · exact ih' rd (by simp [e])

theorem stripCR_no_cr (l : Str) (h : '\r' ∉ l) : stripCR l = l := by
  have : l.getLast? ≠ some '\r' := by
    intro e
    exact h (List.mem_of_getLast?_eq_some e)
  simp [stripCR, this]

theorem stripCR_append_cr (l : Str) : stripCR (l ++ ['\r']) = l := by
  simp [stripCR]

theorem loadStep_addCR (P : Platform) (st : LoadState) (rd : Str × Bool) (h : '\r' ∉ rd.1) :
    loadStep P st (addCR rd) = loadStep P st rd := by
  obtain ⟨l, b⟩ := rd
  cases b
  · simp only [loadStep, addCR, Bool.false_eq_true, if_false, stripCR_append_cr,
      stripCR_no_cr l h]
  · rfl

theorem loadLoop_addCR (P : Platform) (lines : List (Str × Bool)) (st : LoadState)
    (h : ∀ rd ∈ lines, '\r' ∉ rd.1) :
    loadLoop P (lines.map addCR) st = loadLoop P lines st := by
  induction lines generalizing st with
  | nil => rfl
  | cons rd lines ih =>
    rw [List.map_cons, loadLoop_cons, loadLoop_cons, loadStep_addCR P st rd (h rd (by simp))]
    exact ih _ (fun rd' hrd' => h rd' (by simp [hrd']))

/-- C13: for a text without carriage return, `loadFont` gives exactly the same table on the
text with every line feed replaced by carriage return and line feed as on the text itself. -/
theorem loadFont_crlf (P : Platform) (fs : String → Option Str) (pathLF pathCRLF : String)
    (s : Str) (T : FontTable) (hs : '\r' ∉ s) (hLF : fs pathLF = some s)
    (hCRLF : fs pathCRLF = some (toCRLF s)) :
    (loadFont P fs pathCRLF T).2 = (loadFont P fs pathLF T).2 := by
  rw [loadFont_of_open P fs pathCRLF T _ hCRLF, loadFont_of_open P fs pathLF T _ hLF]
  simp only
  rw [readLines_toCRLF, loadLoop_addCR P _ _ (readLines_no_cr s hs)]

/-- C13 at a concrete input: a font of two glyphs, the last row ended by the end of the
file. -/
theorem loadFont_crlf_witness :
    ('\r' ∉ "[A]\n*\n\n[B]\n**".toList ∧
        toCRLF "[A]\n*\n\n[B]\n**".toList = "[A]\r\n*\r\n\r\n[B]\r\n**".toList) ∧
      (loadFont Platform.c
          (fileSystem [("lf.txt", "[A]\n*\n\n[B]\n**".toList),
            ("crlf.txt", "[A]\r\n*\r\n\r\n[B]\r\n**".toList)]) "crlf.txt" []).2
        = (loadFont Platform.c
          (fileSystem [("lf.txt", "[A]\n*\n\n[B]\n**".toList),
            ("crlf.txt", "[A]\r\n*\r\n\r\n[B]\r\n**".toList)]) "lf.txt" []).2 :=
  ⟨by decide,
    loadFont_crlf Platform.c _ "lf.txt" "crlf.txt" "[A]\n*\n\n[B]\n**".toList [] (by decide)
      (by decide) (by decide)⟩

/-! ## Blocks cut short by a header, and blocks without a header -/

theorem loadStep_row_any (P : Platform) (cc : Char) (cd : Glyph) (T : FontTable) (row : Str)
    (h : validRow row) :
    loadStep P { currentChar := cc, currentData := cd, fontData := T } (row, false)
      = { currentChar := cc, currentData := if cc = '\x00' then cd else cd ++ [row],
          fontData := T } := by
  by_cases hcc : cc = '\x00'
  · simp [loadStep, stripCR_of_validRow row h, parseFontLine, h.1, h.2.2.2, hcc]
  · rw [loadStep_row P cc cd T row h hcc]
    simp [hcc]

/-- Row lines change neither the current character nor the table. -/
theorem loadLoop_rows_any (P : Platform) (rows : Glyph) (cc : Char) (cd : Glyph)
    (T : FontTable) (h : ∀ row ∈ rows, validRow row) :
    ∃ cd', loadLoop P (rows.map (fun l => (l, false)))
        { currentChar := cc, currentData := cd, fontData := T }
      = { currentChar := cc, currentData := cd', fontData := T } := by
  induction rows generalizing cd with
  | nil => exact ⟨cd, rfl⟩
  | cons row rows ih =>
    have hr : validRow row := h row (by simp)
    have hrs : ∀ r ∈ rows, validRow r := fun r hr' => h r (by simp [hr'])
    rw [List.map_cons, loadLoop_cons, loadStep_row_any P cc cd T row hr]
    exact ih _ hrs

theorem validRow_open_bracket : validRow ['['] := by decide

theorem validRow_close_bracket : validRow [']'] := by decide

theorem unlines_headerLine_line_feed (ls : List Str) :
    unlines (headerLine '\n' :: ls) = unlines (['['] :: [']'] :: ls) := by
  simp [unlines, headerLine]

/-- After the lines of an unterminated block, whatever its header character, the loop is
still at the table it started from, and a header line then makes `d` current with an
empty buffer. -/
theorem loadLoop_cut_block (P : Platform) (T : FontTable) (c d : Char) (rows : Glyph)
    (hd : d ≠ '\n') (hrows : ∀ row ∈ rows, validRow row) (more : List Str)
    (hmore : ∀ l ∈ more, '\n' ∉ l) :
    loadLoop P (readLines (unlines (headerLine c :: (rows ++ headerLine d :: more))))
        { currentChar := '\x00', currentData := [], fontData := T }
      = loadLoop P (more.map (fun l => (l, false)))
        { currentChar := d, currentData := [], fontData := T } := by
  have hdl : '\n' ∉ headerLine d := by simp [headerLine, Ne.symm hd]
  by_cases hc : c = '\n'
  · subst hc
    rw [unlines_headerLine_line_feed]
    have hl : ∀ l ∈ ['['] :: [']'] :: (rows ++ headerLine d :: more), '\n' ∉ l := by
      intro l hl
      simp only [List.mem_cons, List.mem_append] at hl
      rcases hl with e | e | h | e | h
      · subst e; decide
      · subst e; decide
      · exact (hrows l h).2.1
      · subst e; exact hdl
      · exact hmore l h
    have e := readLines_unlines _ [] hl
    rw [List.append_nil] at e
    rw [e]
    have hrows2 : ∀ row ∈ ['['] :: [']'] :: rows, validRow row := by
      intro row hrow
      simp only [List.mem_cons] at hrow
      rcases hrow with e | e | h
      · subst e; exact validRow_open_bracket
      · subst e; exact validRow_close_bracket
      · exact hrows row h
    obtain ⟨cd', hcd'⟩ := loadLoop_rows_any P (['['] :: [']'] :: rows) '\x00' [] T hrows2
    have e2 : (['['] :: [']'] :: (rows ++ headerLine d :: more)).map (fun l => (l, false))
          ++ readLines []
        = (['['] :: [']'] :: rows).map (fun l => (l, false))
          ++ ((headerLine d, false) :: more.map (fun l => (l, false))) := by
      simp [readLines]
    rw [e2, loadLoop_append, hcd', loadLoop_cons, loadStep_header]
  · have hl : ∀ l ∈ headerLine c :: (rows ++ headerLine d :: more), '\n' ∉ l := by
      intro l hl
      simp only [List.mem_cons, List.mem_append] at hl
      rcases hl with e | h | e | h
      · subst e; simp [headerLine, Ne.symm hc]
      · exact (hrows l h).2.1
      · subst e; exact hdl
      · exact hmore l h
    have e := readLines_unlines _ [] hl
    rw [List.append_nil] at e
    rw [e]
    obtain ⟨cd', hcd'⟩ := loadLoop_rows_any P rows c [] T hrows
    have e2 : (headerLine c :: (rows ++ headerLine d :: more)).map (fun l => (l, false))
          ++ readLines []
        = (headerLine c, false) :: (rows.map (fun l => (l, false))
          ++ ((headerLine d, false) :: more.map (fun l => (l, false)))) := by
      simp [readLines]
    rw [e2, loadLoop_cons, loadStep_header, loadLoop_append, hcd', loadLoop_cons,
      loadStep_header]

/-- C14 (amended): for every character `c`, every character `d` other than NUL and the line
feed, all row lines `rows` and one or more row lines `rows'`, loading the lines `[c]`,
`rows`, `[d]`, `rows'` and a blank line into an empty table gives the table whose only key
is `d`, with the glyph `rows'`: the rows buffered for `c` are dropped. -/
theorem loadFont_header_discards (P : Platform) (fs : String → Option Str)
    (filePath : String) (c d : Char) (rows rows' : Glyph)
    (hd0 : d ≠ '\x00') (hdn : d ≠ '\n') (hrows : ∀ row ∈ rows, validRow row)
    (hne : rows' ≠ []) (hrows' : ∀ row ∈ rows', validRow row)
    (hfs : fs filePath
      = some (unlines (headerLine c :: (rows ++ headerLine d :: (rows' ++ [[]]))))) :
    (loadFont P fs filePath []).2 = [(d, rows')] := by
  rw [loadFont_of_open P fs filePath [] _ hfs]
  have hmore : ∀ l ∈ rows' ++ [[]], '\n' ∉ l := by
    intro l hl
    simp only [List.mem_append, List.mem_singleton] at hl
    rcases hl with h | e
    · exact (hrows' l h).2.1
    · subst e; simp
  simp only
  rw [loadLoop_cut_block P [] c d rows hdn hrows _ hmore]
  have := loadLoop_rows P rows' [([], false)] d [] [] hrows' hd0
  rw [List.map_append, List.map_singleton, this]
  simp [loadLoop, loadStep_blank P d rows' [] hne hd0, FontTable.assign]

/-- C14 at a concrete input: the block of `A` is cut short by the header of `B`. -/
theorem loadFont_header_discards_witness :
    (('B' : Char) ≠ '\x00' ∧ ('B' : Char) ≠ '\n' ∧
        (∀ row ∈ ([['*']] : Glyph), validRow row) ∧ ([['*', '*']] : Glyph) ≠ [] ∧
        (∀ row ∈ ([['*', '*']] : Glyph), validRow row) ∧
        unlines (headerLine 'A' :: ([['*']] ++ headerLine 'B' :: ([['*', '*']] ++ [[]])))
          = "[A]\n*\n[B]\n**\n\n".toList) ∧
      (loadFont Platform.c (oneFile "font.txt" "[A]\n*\n[B]\n**\n\n".toList) "font.txt" []).2
        = [('B', [['*', '*']])] :=
  ⟨by decide,
    loadFont_header_discards Platform.c (oneFile "font.txt" "[A]\n*\n[B]\n**\n\n".toList)
      "font.txt" 'A' 'B' [['*']] [['*', '*']] (by decide) (by decide) (by decide) (by decide)
      (by decide) (by decide)⟩

/-- C14 as stated fails when `d` is NUL: the header `[d]` then switches the current
character off, the rows after it are skipped and the table stays empty. -/
theorem loadFont_header_discards_nul :
    ('A' : Char) ≠ '\x00' ∧ (∀ row ∈ ([['*']] : Glyph), validRow row) ∧
      (∀ row ∈ ([['*', '*']] : Glyph), validRow row) ∧
      unlines (headerLine 'A' :: ([['*']] ++ headerLine '\x00' :: ([['*', '*']] ++ [[]])))
        = "[A]\n*\n[\x00]\n**\n\n".toList ∧
      (loadFont Platform.c (oneFile "font.txt" "[A]\n*\n[\x00]\n**\n\n".toList) "font.txt"
        []).2 = [] ∧
      (loadFont Platform.c (oneFile "font.txt" "[A]\n*\n[\x00]\n**\n\n".toList) "font.txt"
        []).2 ≠ [('\x00', [['*', '*']])] := by
  decide

/-! ## What the stored rows look like -/

theorem parseFontLine_rows (line : Str) (cc : Char) (cd : Glyph) :
    ∀ row ∈ (parseFontLine line cc cd).2, row ∈ cd ∨ (row = line ∧ line ≠ []) := by
  intro row h
  unfold parseFontLine at h
  split_ifs at h with h1 h2 h3
  · exact Or.inl h
  · simp at h
  · simp only [List.mem_append, List.mem_singleton] at h
    rcases h with h | h
    · exact Or.inl h
    · exact Or.inr ⟨h, h1⟩
  · exact Or.inl h

/-- One turn of the loop keeps the rows of the buffer and of the entries assigned so far
within the lines read, with their trailing carriage return removed, and never assigns an
empty glyph. -/
theorem loadStep_entries (P : Platform) (good : Str → Prop) (T : FontTable) (st : LoadState)
    (rd : Str × Bool) (hgood : stripCR rd.1 ≠ [] → good (stripCR rd.1))
    (hcd : ∀ row ∈ st.currentData, good row)
    (hfd : ∀ e ∈ st.fontData, e ∈ T ∨ (e.2 ≠ [] ∧ ∀ row ∈ e.2, good row)) :
    (∀ row ∈ (loadStep P st rd).currentData, good row) ∧
      (∀ e ∈ (loadStep P st rd).fontData, e ∈ T ∨ (e.2 ≠ [] ∧ ∀ row ∈ e.2, good row)) := by
  have hp : ∀ row ∈ (parseFontLine (stripCR rd.1) st.currentChar st.currentData).2,
      good row := by
    intro row hrow
    rcases parseFontLine_rows _ _ _ row hrow with h | ⟨h1, h2⟩
    · exact hcd row h
    · rw [h1]
      exact hgood h2
  unfold loadStep
  simp only
  split_ifs with h1 h2
  · refine ⟨by simp, ?_⟩
    intro e he
    rcases mem_assign P _ _ _ e he with h | h
    · subst h
      exact Or.inr ⟨h2.2, hp⟩
    · exact hfd e h
  · exact ⟨hp, hfd⟩
  · exact ⟨hp, hfd⟩

theorem loadLoop_entries (P : Platform) (good : Str → Prop) (T : FontTable)
    (lines : List (Str × Bool)) (st : LoadState)
    (hgood : ∀ rd ∈ lines, stripCR rd.1 ≠ [] → good (stripCR rd.1))
    (hcd : ∀ row ∈ st.currentData, good row)
    (hfd : ∀ e ∈ st.fontData, e ∈ T ∨ (e.2 ≠ [] ∧ ∀ row ∈ e.2, good row)) :
    ∀ e ∈ (loadLoop P lines st).fontData, e ∈ T ∨ (e.2 ≠ [] ∧ ∀ row ∈ e.2, good row) := by
  induction lines generalizing st with
  | nil => exact hfd
  | cons rd lines ih =>
    rw [loadLoop_cons]
    obtain ⟨h1, h2⟩ := loadStep_entries P good T st rd (hgood rd (by simp)) hcd hfd
    exact ih _ (fun rd' hrd' => hgood rd' (by simp [hrd'])) h1 h2

/-- Every entry of the table after `loadFont` is an entry of the table before, or a
non-empty glyph whose rows are lines of the file with their trailing carriage return
removed. -/
theorem loadFont_entries (P : Platform) (good : Str → Prop) (fs : String → Option Str)
    (filePath : String) (T : FontTable)
    (hgood : ∀ s, fs filePath = some s →
      ∀ rd ∈ readLines s, stripCR rd.1 ≠ [] → good (stripCR rd.1)) :
    ∀ e ∈ (loadFont P fs filePath T).2, e ∈ T ∨ (e.2 ≠ [] ∧ ∀ row ∈ e.2, good row) := by
  cases hfs : fs filePath with
  | none =>
    intro e he
    simp only [loadFont, hfs] at he
    exact Or.inl he
  | some s =>
    rw [loadFont_of_open P fs filePath T s hfs]
    exact loadLoop_entries P good T (readLines s) _ (hgood s hfs) (by simp)
      (fun e he => Or.inl he)

theorem stripCR_no_trailing_cr (l : Str) (h : ¬ ['\r', '\r'] <:+ l) :
    (stripCR l).getLast? ≠ some '\r' := by
  induction l using List.reverseRecOn with
  | nil => simp [stripCR]
  | append_singleton l' x _ =>
    by_cases hx : x = '\r'
    · subst hx
      rw [stripCR_append_cr]
      intro e
      apply h
      obtain ⟨l'', hl''⟩ : ∃ l'', l' = l'' ++ ['\r'] := by
        have hne : l' ≠ [] := by
          intro e'
          rw [e'] at e
          simp at e
        refine ⟨l'.dropLast, ?_⟩
        have := List.dropLast_append_getLast hne
        rw [List.getLast?_eq_getLast l' hne] at e
        rw [← Option.some.inj e]
        exact this.symm
      rw [hl'']
      exact ⟨l'', by simp⟩
    · have : stripCR (l' ++ [x]) = l' ++ [x] := by simp [stripCR, hx]
      rw [this]
      simp [hx]

/-- C15 (amended): for every source text none of whose lines ends with two carriage
returns, every entry of the table after `loadFont` is an entry of the table before or has
no row ending with a carriage return: no row that `loadFont` commits ends with one. -/
theorem loadFont_rows_no_cr (P : Platform) (fs : String → Option Str) (filePath : String)
    (s : Str) (T : FontTable) (hfs : fs filePath = some s)
    (hs : ∀ rd ∈ readLines s, ¬ ['\r', '\r'] <:+ rd.1) :
    ∀ e ∈ (loadFont P fs filePath T).2,
      e ∈ T ∨ ∀ row ∈ e.2, row.getLast? ≠ some '\r' := by
  intro e he
  have hgood : ∀ s', fs filePath = some s' →
      ∀ rd ∈ readLines s', stripCR rd.1 ≠ [] → (stripCR rd.1).getLast? ≠ some '\r' := by
    intro s' hs' rd hrd _
    rw [hfs] at hs'
    have e' := Option.some.inj hs'
    subst e'
    exact stripCR_no_trailing_cr rd.1 (hs rd hrd)
  rcases loadFont_entries P (fun row => row.getLast? ≠ some '\r') fs filePath T hgood e he
    with h | h
  · exact Or.inl h
  · exact Or.inr h.2

/-- C15 at a concrete input: a font file with CRLF line endings. -/
theorem loadFont_rows_no_cr_witness :
    (oneFile "font.txt" "[A]\r\n*\r\n**\r\n\r\n".toList "font.txt"
        = some "[A]\r\n*\r\n**\r\n\r\n".toList ∧
      (∀ rd ∈ readLines "[A]\r\n*\r\n**\r\n\r\n".toList, ¬ ['\r', '\r'] <:+ rd.1) ∧
      (('A', [['*'], ['*', '*']]) : Char × Glyph)
        ∈ (loadFont Platform.c (oneFile "font.txt" "[A]\r\n*\r\n**\r\n\r\n".toList)
          "font.txt" []).2) ∧
      ((('A', [['*'], ['*', '*']]) : Char × Glyph) ∈ ([] : FontTable) ∨
        ∀ row ∈ ([['*'], ['*', '*']] : Glyph), row.getLast? ≠ some '\r') :=
  ⟨by decide,
    loadFont_rows_no_cr Platform.c (oneFile "font.txt" "[A]\r\n*\r\n**\r\n\r\n".toList)
      "font.txt" "[A]\r\n*\r\n**\r\n\r\n".toList [] (by decide) (by decide)
      ('A', [['*'], ['*', '*']]) (by decide)⟩

/-- C15 as stated fails on a line that ends with two carriage returns: one is removed, and
the row stored for `A` is `*` followed by a carriage return. -/
theorem loadFont_rows_double_cr :
    (loadFont Platform.c (oneFile "font.txt" "[A]\n*\r\r\n\n".toList) "font.txt" []).2
        = [('A', [['*', '\r']])] ∧
      (['*', '\r'] : Str).getLast? = some '\r' := by
  decide

/-! ## Lower-case keys, reachable tables, rows after a commit -/

theorem toupper_not_lowercase (P : Platform) (c : Char) :
    ¬ (97 ≤ (toupper P c).toNat ∧ (toupper P c).toNat ≤ 122) := by
  by_cases h : 97 ≤ c.toNat ∧ c.toNat ≤ 122
  · obtain ⟨e, h1, h2⟩ := toupper_lower P c h.1 h.2
    rw [e]
    omega
  · rw [(toupper_not_lower P c h).1]
    by_cases h128 : c.toNat < 128
    · simpa [h128] using h
    · simp only [h128, if_false]
      have := P.upperHigh_high c (by omega)
      omega

theorem printChar_assign_lowercase (P : Platform) (T : FontTable) (k : Char) (g' : Glyph)
    (s : Char) (r : Nat) (c : Char) (hk : 97 ≤ k.toNat ∧ k.toNat ≤ 122) :
    printChar P (T.assign P k g') s r c = printChar P T s r c := by
  have hne : k ≠ toupper P c := by
    intro e
    rw [e] at hk
    exact toupper_not_lowercase P c hk
  simp only [printChar, find_assign, hne, if_false]

/-- In an ordered table, overwriting the glyph of a key by one with as many rows keeps the
row count of the first entry. -/
theorem charHeight_assign (P : Platform) (T : FontTable) (k : Char) (g g' : Glyph)
    (hT : T.Ordered P) (hg : T.find k = some g) (hlen : g'.length = g.length) :
    charHeight (T.assign P k g') = charHeight T := by
  cases T with
  | nil => simp [FontTable.find] at hg
  | cons e rest =>
    obtain ⟨k1, v1⟩ := e
    simp only [FontTable.Ordered, List.pairwise_cons] at hT
    by_cases h1 : k = k1
    · subst h1
      simp only [FontTable.find, if_true, Option.some.injEq] at hg
      subst hg
      simp [FontTable.assign, charHeight, hlen]
    · have h1' : ¬ k1 = k := fun e => h1 e.symm
      simp only [FontTable.find, h1', if_false] at hg
      obtain ⟨g0, hg0⟩ : ∃ g0, (k, g0) ∈ rest := by
        have : k ∈ FontTable.keys rest := (mem_keys_iff rest k).2 ⟨g, hg⟩
        simp only [FontTable.keys, List.mem_map] at this
        obtain ⟨e, he, hek⟩ := this
        exact ⟨e.2, by rw [← hek]; exact he⟩
      have hlt := keyLess_asymm P k1 k (hT.1 (k, g0) hg0)
      simp [FontTable.assign, h1, hlt, charHeight]

/-- C16: for a key `k` among the letters `a`-`z` holding the glyph `g`, overwriting that
glyph by any glyph with as many rows leaves the output of `printText` unchanged, for every
(ordered) table, text, colour and fill symbol. -/
theorem printText_lowercase_unreachable (P : Platform) (T : FontTable)
    (self : ConsolePrinter) (text : Str) (k : Char) (g g' : Glyph) (hT : T.Ordered P)
    (hk : 97 ≤ k.toNat ∧ k.toNat ≤ 122) (hg : T.find k = some g)
    (hlen : g'.length = g.length) :
    printText P (T.assign P k g') self text = printText P T self text := by
  have e : printRow P (T.assign P k g') self.symbol text = printRow P T self.symbol text := by
    funext r
    have e' : printChar P (T.assign P k g') self.symbol r = printChar P T self.symbol r :=
      funext fun c => printChar_assign_lowercase P T k g' self.symbol r c hk
    simp only [printRow, e']
  simp only [printText, printRows, e, charHeight_assign P T k g g' hT hg hlen]

/-- C16 at a concrete input: the glyph of `a` is the first entry of the table. -/
theorem printText_lowercase_unreachable_witness :
    (FontTable.Ordered Platform.c [('a', ["*".toList]), ('b', ["**".toList])] ∧
        (97 ≤ ('a' : Char).toNat ∧ ('a' : Char).toNat ≤ 122) ∧
        FontTable.find [('a', ["*".toList]), ('b', ["**".toList])] 'a' = some ["*".toList] ∧
        (["***".toList] : Glyph).length = (["*".toList] : Glyph).length) ∧
      printText Platform.c
          (FontTable.assign Platform.c [('a', ["*".toList]), ('b', ["**".toList])] 'a'
            ["***".toList])
          (ConsolePrinter.new Color.RED (1, 1) '#') "ab".toList
        = printText Platform.c [('a', ["*".toList]), ('b', ["**".toList])]
          (ConsolePrinter.new Color.RED (1, 1) '#') "ab".toList :=
  ⟨by decide,
    printText_lowercase_unreachable Platform.c [('a', ["*".toList]), ('b', ["**".toList])]
      (ConsolePrinter.new Color.RED (1, 1) '#') "ab".toList 'a' ["*".toList] ["***".toList]
      (by decide) (by decide) (by decide) (by decide)⟩

/-- C17: in every table reachable from the empty one by calls of `loadFont`, every glyph
has at least one row and every row is non-empty; so the canvas height is at least 1
whenever the table is not empty. -/
theorem reachable_glyphs_nonempty (P : Platform) (T : FontTable) (h : Reachable P T) :
    (∀ e ∈ T, e.2 ≠ [] ∧ ∀ row ∈ e.2, row ≠ []) ∧ (T ≠ [] → 1 ≤ charHeight T) := by
  have hall : ∀ e ∈ T, e.2 ≠ [] ∧ ∀ row ∈ e.2, row ≠ [] := by
    induction h with
    | empty => simp
    | load fs filePath T0 _ ih =>
      intro e he
      rcases loadFont_entries P (fun row => row ≠ []) fs filePath T0
        (fun _ _ _ _ hne => hne) e he with h | h
      · exact ih e h
      · exact h
  refine ⟨hall, ?_⟩
  intro hne
  cases T with
  | nil => exact absurd rfl hne
  | cons e rest =>
    have := (hall e (by simp)).1
    simp only [charHeight]
    exact List.length_pos.2 this

/-- C17 at a concrete input: the table after two loads, the second of a file of headers
and stray rows only. -/
theorem reachable_glyphs_nonempty_witness :
    Reachable Platform.c
        (loadFont Platform.c (oneFile "b.txt" "*\n[B]\n\n[C]\n".toList) "b.txt"
          (loadFont Platform.c (oneFile "a.txt" "[A]\n*\n\n".toList) "a.txt" []).2).2 ∧
      (loadFont Platform.c (oneFile "b.txt" "*\n[B]\n\n[C]\n".toList) "b.txt"
          (loadFont Platform.c (oneFile "a.txt" "[A]\n*\n\n".toList) "a.txt" []).2).2 ≠ [] ∧
      1 ≤ charHeight
        (loadFont Platform.c (oneFile "b.txt" "*\n[B]\n\n[C]\n".toList) "b.txt"
          (loadFont Platform.c (oneFile "a.txt" "[A]\n*\n\n".toList) "a.txt" []).2).2 :=
  ⟨Reachable.load _ _ _ (Reachable.load _ _ _ Reachable.empty), by decide,
    (reachable_glyphs_nonempty Platform.c _
      (Reachable.load (oneFile "b.txt" "*\n[B]\n\n[C]\n".toList) "b.txt" _
        (Reachable.load (oneFile "a.txt" "[A]\n*\n\n".toList) "a.txt" _
          Reachable.empty))).2 (by decide)⟩

/-- C18 (amended): for every character `c` other than NUL and the line feed and every two
non-empty lists of row lines `R1` and `R2`, loading the lines `[c]`, `R1`, a blank line,
`R2` and a blank line leaves `FontTable[c]` equal to `R2`: the rows after the first commit
are stored under the same character and replace the first glyph. -/
theorem loadFont_headerless_block (P : Platform) (fs : String → Option Str)
    (filePath : String) (T : FontTable) (c : Char) (R1 R2 : Glyph)
    (hc0 : c ≠ '\x00') (hcn : c ≠ '\n') (hne1 : R1 ≠ []) (hne2 : R2 ≠ [])
    (hR1 : ∀ row ∈ R1, validRow row) (hR2 : ∀ row ∈ R2, validRow row)
    (hfs : fs filePath = some (unlines (headerLine c :: (R1 ++ [] :: (R2 ++ [[]]))))) :
    (loadFont P fs filePath T).2.find c = some R2 := by
  rw [loadFont_of_open P fs filePath T _ hfs]
  have hl : ∀ l ∈ headerLine c :: (R1 ++ [] :: (R2 ++ [[]])), '\n' ∉ l := by
    intro l hl
    simp only [List.mem_cons, List.mem_append, List.mem_singleton, List.not_mem_nil,
      or_false] at hl
    rcases hl with e | h | e | h | e
    · subst e; simp [headerLine, Ne.symm hcn]
    · exact (hR1 l h).2.1
    · subst e; simp
    · exact (hR2 l h).2.1
    · subst e; simp
  have e := readLines_unlines _ [] hl
  rw [List.append_nil] at e
  rw [e]
  have e2 : (headerLine c :: (R1 ++ [] :: (R2 ++ [[]]))).map (fun l => (l, false))
        ++ readLines []
      = ((headerLine c, false) :: R1.map (fun l => (l, false)) ++ [([], false)])
        ++ (R2.map (fun l => (l, false)) ++ [([], false)]) := by
    simp [readLines]
  rw [e2, loadLoop_append, loadLoop_block P _ c R1 hc0 hne1 hR1,
    loadLoop_rows P R2 [([], false)] c [] _ hR2 hc0]
  simp [loadLoop, loadStep_blank P c R2 _ hne2 hc0, find_assign]

/-- C18 at a concrete input: two groups of rows under the single header of `A`. -/
theorem loadFont_headerless_block_witness :
    (('A' : Char) ≠ '\x00' ∧ ('A' : Char) ≠ '\n' ∧ ([['*']] : Glyph) ≠ [] ∧
        ([['*', '*']] : Glyph) ≠ [] ∧ (∀ row ∈ ([['*']] : Glyph), validRow row) ∧
        (∀ row ∈ ([['*', '*']] : Glyph), validRow row) ∧
        unlines (headerLine 'A' :: ([['*']] ++ [] :: ([['*', '*']] ++ [[]])))
          = "[A]\n*\n\n**\n\n".toList) ∧
      (loadFont Platform.c (oneFile "font.txt" "[A]\n*\n\n**\n\n".toList) "font.txt"
        []).2.find 'A' = some [['*', '*']] :=
  ⟨by decide,
    loadFont_headerless_block Platform.c (oneFile "font.txt" "[A]\n*\n\n**\n\n".toList)
      "font.txt" [] 'A' [['*']] [['*', '*']] (by decide) (by decide) (by decide) (by decide)
      (by decide) (by decide) (by decide)⟩

/-- C18 as stated fails when `c` is the line feed: the text then has no header line, the
current character is never set and nothing is stored under the line feed. -/
theorem loadFont_headerless_block_line_feed :
    ('\n' : Char) ≠ '\x00' ∧ (∀ row ∈ ([['*']] : Glyph), validRow row) ∧
      (∀ row ∈ ([['*', '*']] : Glyph), validRow row) ∧
      unlines (headerLine '\n' :: ([['*']] ++ [] :: ([['*', '*']] ++ [[]])))
        = "[\n]\n*\n\n**\n\n".toList ∧
      (loadFont Platform.c (oneFile "font.txt" "[\n]\n*\n\n**\n\n".toList) "font.txt"
        []).2.find '\n' ≠ some [['*', '*']] := by
  decide

/-! ## Accesses in bounds -/

/-- A header line has at least two characters. -/
theorem isHeader_length (line : Str) (h : isHeader line) : 2 ≤ line.length := by
  obtain ⟨h1, h2⟩ := h
  cases line with
  | nil => simp at h1
  | cons a rest =>
    simp only [List.head?_cons, Option.some.injEq] at h1
    subst h1
    cases rest with
    | nil => simp at h2
    | cons b rest' => simp

theorem stripCRChecked_eq (line : Str) : stripCRChecked line = some (stripCR line) := by
  unfold stripCRChecked stripCR
  by_cases h : line = []
  · simp [h]
  · simp only [h, if_false]
    rw [List.getLast?_eq_getLast line h]
    by_cases hc : line.getLast h = '\r'
    · simp [hc, h]
    · simp [hc]

theorem parseFontLineChecked_eq (line : Str) (cc : Char) (cd : Glyph) :
    parseFontLineChecked line cc cd = some (parseFontLine line cc cd) := by
  cases line with
  | nil => simp [parseFontLineChecked, parseFontLine]
  | cons a rest =>
    have hiff : (a = '[' ∧ ']' ∈ a :: rest) ↔ isHeader (a :: rest) := by
      simp [isHeader]
    by_cases h : isHeader (a :: rest)
    · have hlen := isHeader_length _ h
      cases rest with
      | nil => simp at hlen
      | cons b rest' =>
        unfold parseFontLineChecked parseFontLine
        rw [if_neg (List.cons_ne_nil _ _), if_neg (List.cons_ne_nil _ _), if_pos h]
        simp only [List.get?_cons_zero]
        rw [if_pos (hiff.2 h)]
        rfl
    · have hn : ¬ (a = '[' ∧ ']' ∈ a :: rest) := fun e => h (hiff.1 e)
      simp only [parseFontLineChecked, parseFontLine, List.get?_cons_zero, hn, h, if_false]
      simp only [List.cons_ne_nil, not_false_eq_true, true_and, ite_false, reduceCtorEq]
      split_ifs <;> rfl

theorem loadStepChecked_eq (P : Platform) (st : LoadState) (rd : Str × Bool) :
    loadStepChecked P st rd = some (loadStep P st rd) := by
  unfold loadStepChecked loadStep
  rw [stripCRChecked_eq]
  simp only
  rw [parseFontLineChecked_eq]
  simp only
  split_ifs <;> rfl

theorem loadLoopChecked_eq (P : Platform) (lines : List (Str × Bool)) (st : LoadState) :
    loadLoopChecked P lines st = some (loadLoop P lines st) := by
  induction lines generalizing st with
  | nil => rfl
  | cons rd lines ih =>
    simp only [loadLoopChecked, loadStepChecked_eq, loadLoop_cons, ih]

theorem printCharChecked_eq (P : Platform) (T : FontTable) (s : Char) (r : Nat) (c : Char) :
    printCharChecked P T s r c = some (printChar P T s r c) := by
  unfold printCharChecked printChar
  simp only
  split_ifs with h1
  · rfl
  · cases T.find (toupper P c) with
    | none => simp
    | some g =>
      simp only
      by_cases h2 : r < g.length
      · simp [h2, List.getElem?_eq_getElem h2]
      · simp [h2]

theorem printRowChecked_eq (P : Platform) (T : FontTable) (s : Char) (text : Str) (r : Nat) :
    printRowChecked P T s text r = some (printRow P T s text r) := by
  induction text with
  | nil => rfl
  | cons c cs ih =>
    simp only [printRow] at ih
    simp only [printRowChecked, printCharChecked_eq, ih, printRow, List.flatMap_cons]

theorem printRowsChecked_eq (P : Platform) (T : FontTable) (s : Char) (text : Str)
    (rs : List Nat) :
    printRowsChecked P T s text rs = some (rs.map (printRow P T s text)) := by
  induction rs with
  | nil => rfl
  | cons r rs ih => simp only [printRowsChecked, printRowChecked_eq, ih, List.map_cons]

/-- C19: `parseFontLine` reads `line[1]` only on a header line, which has at least two
characters, and `printText` reads a glyph row only below the row count; with every access
checked, the parser, the loader and the renderer never take the out-of-range branch and
give the results of the unchecked functions. -/
theorem accesses_in_bounds (P : Platform) (fs : String → Option Str) (filePath : String)
    (T : FontTable) (self : ConsolePrinter) (text line : Str) (cc : Char) (cd : Glyph) :
    (isHeader line → 2 ≤ line.length) ∧
      parseFontLineChecked line cc cd = some (parseFontLine line cc cd) ∧
      loadFontChecked P fs filePath T = some (loadFont P fs filePath T) ∧
      printTextChecked P T self text = some (printText P T self text) := by
  refine ⟨isHeader_length line, parseFontLineChecked_eq line cc cd, ?_, ?_⟩
  · unfold loadFontChecked loadFont
    cases fs filePath with
    | none => rfl
    | some content => simp only [loadLoopChecked_eq]
  · unfold printTextChecked printText printRows
    simp only [printRowsChecked_eq]

/-- C19 at a concrete input: a header line of two characters, a file with short lines and
a text that asks for a row beyond a short glyph. -/
theorem accesses_in_bounds_witness :
    isHeader "[]".toList ∧ 2 ≤ "[]".toList.length ∧
      loadFontChecked Platform.c (oneFile "font.txt" "[\n]\n[]\n*\n\n".toList) "font.txt" []
        = some (Except.ok (), [(']', [['*']])]) ∧
      printTextChecked Platform.c [('A', [['*'], ['*']]), ('B', [['*']])]
          (ConsolePrinter.new Color.DEFAULT (1, 1) '#') "b".toList
        = some "\x1b[39m# \n \n\x1b[0m".toList :=
  ⟨by decide,
    (accesses_in_bounds Platform.c (oneFile "font.txt" "[\n]\n[]\n*\n\n".toList) "font.txt" []
      (ConsolePrinter.new Color.DEFAULT (1, 1) '#') "b".toList "[]".toList 'A' []).1
      (by decide),
    (accesses_in_bounds Platform.c (oneFile "font.txt" "[\n]\n[]\n*\n\n".toList) "font.txt" []
      (ConsolePrinter.new Color.DEFAULT (1, 1) '#') "b".toList "[]".toList 'A' []).2.2.1,
    (accesses_in_bounds Platform.c (fun _ => none) "font.txt"
      [('A', [['*'], ['*']]), ('B', [['*']])]
      (ConsolePrinter.new Color.DEFAULT (1, 1) '#') "b".toList "[]".toList 'A' []).2.2.2⟩

end Lab2

namespace Lab1

/-! ## The bounds of a `Point2d` -/

theorem validateCoordinates_threw (x y : Int) :
    threw (validateCoordinates x y) = true ↔ ¬ inBounds x y := by
  unfold validateCoordinates inBounds
  split_ifs with h
  · simp only [threw, true_iff]
    omega
  · simp only [threw, Bool.false_eq_true, false_iff, not_not]
    omega

/-- The constructor throws exactly when the coordinates are outside the screen, and
otherwise gives the point with these coordinates. -/
theorem construct_spec (x y : Int) :
    (threw (Point2d.construct x y) = true ↔ ¬ inBounds x y) ∧
      (inBounds x y → Point2d.construct x y = Except.ok { x_ := x, y_ := y }) := by
  have h := validateCoordinates_threw x y
  unfold Point2d.construct
  cases hv : validateCoordinates x y with
  | error e =>
    rw [hv] at h
    simp only [threw, true_iff] at h
    exact ⟨by simp [threw, h], fun hb => absurd hb h⟩
  | ok u =>
    rw [hv] at h
    simp only [threw, Bool.false_eq_true, false_iff, not_not] at h
    exact ⟨by simp [threw, h], fun _ => rfl⟩

/-- The setter `set_x` throws exactly when the coordinates it would give are outside the
screen; it then leaves the point unchanged, and otherwise stores the new coordinate. -/
theorem set_x_spec (p : Point2d) (x : Int) :
    (threw (p.set_x x).1 = true ↔ ¬ inBounds x p.y_) ∧
      (threw (p.set_x x).1 = true → (p.set_x x).2 = p) ∧
      (inBounds x p.y_ → (p.set_x x).2 = { x_ := x, y_ := p.y_ }) := by
  have h := validateCoordinates_threw x p.y_
  unfold Point2d.set_x
  cases hv : validateCoordinates x p.y_ with
  | error e =>
    rw [hv] at h
    simp only [threw, true_iff] at h
    exact ⟨by simp [threw, h], fun _ => rfl, fun hb => absurd hb h⟩
  | ok u =>
    rw [hv] at h
    simp only [threw, Bool.false_eq_true, false_iff, not_not] at h
    exact ⟨by simp [threw, h], fun hb => by simp [threw] at hb, fun _ => rfl⟩

/-- The setter `set_y` throws exactly when the coordinates it would give are outside the
screen; it then leaves the point unchanged, and otherwise stores the new coordinate. -/
theorem set_y_spec (p : Point2d) (y : Int) :
    (threw (p.set_y y).1 = true ↔ ¬ inBounds p.x_ y) ∧
      (threw (p.set_y y).1 = true → (p.set_y y).2 = p) ∧
      (inBounds p.x_ y → (p.set_y y).2 = { x_ := p.x_, y_ := y }) := by
  have h := validateCoordinates_threw p.x_ y
  unfold Point2d.set_y
  cases hv : validateCoordinates p.x_ y with
  | error e =>
    rw [hv] at h
    simp only [threw, true_iff] at h
    exact ⟨by simp [threw, h], fun _ => rfl, fun hb => absurd hb h⟩
  | ok u =>
    rw [hv] at h
    simp only [threw, Bool.false_eq_true, false_iff, not_not] at h
    exact ⟨by simp [threw, h], fun hb => by simp [threw] at hb, fun _ => rfl⟩

theorem change_onScreen (p : Point2d) (c : Change) (h : p.onScreen) :
    (p.change c).onScreen := by
  cases c with
  | set_x x =>
    by_cases hb : inBounds x p.y_
    · simp only [Point2d.change, (set_x_spec p x).2.2 hb]
      exact hb
    · simp only [Point2d.change, (set_x_spec p x).2.1 ((set_x_spec p x).1.2 hb)]
      exact h
  | set_y y =>
    by_cases hb : inBounds p.x_ y
    · simp only [Point2d.change, (set_y_spec p y).2.2 hb]
      exact hb
    · simp only [Point2d.change, (set_y_spec p y).2.1 ((set_y_spec p y).1.2 hb)]
      exact h
  | assignPoint q hq => exact hq

/-- A point from the constructor stays on the screen under every sequence of setters and
of assignments from points on the screen. -/
theorem changes_onScreen (x y : Int) (p : Point2d) (cs : List Change)
    (h : Point2d.construct x y = Except.ok p) : (cs.foldl Point2d.change p).onScreen := by
  have hp : p.onScreen := by
    by_cases hb : inBounds x y
    · rw [(construct_spec x y).2 hb] at h
      rw [← Except.ok.inj h]
      exact hb
    · have := (construct_spec x y).1.2 hb
      rw [h] at this
      simp [threw] at this
  clear h
  induction cs generalizing p with
  | nil => exact hp
  | cons c cs ih => exact ih _ (change_onScreen p c hp)

/-- C20 at the failing input: the point built by `Point2d(10, 20)` and then assigned the
pair `(-1, 2000)` has these coordinates, outside the screen, and nothing is thrown. -/
theorem assignPair_leaves_screen :
    Point2d.construct 10 20 = Except.ok { x_ := 10, y_ := 20 } ∧
      Point2d.assignPair { x_ := 10, y_ := 20 } (-1, 2000) = { x_ := -1, y_ := 2000 } ∧
      ¬ Point2d.onScreen { x_ := -1, y_ := 2000 } :=
  ⟨rfl, rfl, by decide⟩

end Lab1
